import Mathlib

/-!
# miniml — a verification development

Shallow embedding of the miniml pipeline (matklad/miniml):
surface AST → desugar (src/src/ir.rs) → core IR → compile
(src/src/compile.rs, the scheme of spec §4.3) → frames → abstract
machine (src/src/machine/mod.rs) with its moving garbage collector.

Modelling conventions:
* Rust `i64` is `Int` together with explicit two's-complement wrapping
  (`wrap64`) exactly where the code can overflow; `+`, `-`, `*` wrap in
  release builds, `/` is checked by Rust and panics on `i64::MIN / -1`.
* Rust `Vec` stacks become `List`s with the head as the top of the stack.
* Rust `HashMap<Name, Value>` environments become insertion-ordered
  association lists (`envInsert` replaces in place like `HashMap::insert`);
  where the Rust iteration order of a `HashMap` is unspecified we fix the
  insertion order, and where the code iterates a `Vec` (the value and
  environment stacks in `gc`) we keep the `Vec` (bottom-first) order.
* `Result<T, RuntimeError>` becomes `Except Err _`; `Err` distinguishes the
  reportable `runtime` error, the `fatal` errors (`"Fatal: … :("`), and Rust
  `panic` (unwrap on `None`, slice index out of bounds, division overflow),
  which aborts the process and is not a `RuntimeError` at all.
* The fetch/execute loop takes explicit fuel; `none` models divergence.
-/

/-- `machine::program::Name` (`ir::Name`): a dense integer name. -/
abbrev Name := Nat

/-- `machine::program::ArithInstruction`. -/
inductive ArithInstruction where
  | add
  | sub
  | mul
  | div
deriving DecidableEq, Repr

/-- `machine::program::CmpInstruction`. -/
inductive CmpInstruction where
  | lt
  | eq
  | gt
deriving DecidableEq, Repr

/-- `machine::program::Instruction`, as used by `machine/mod.rs`: `Branch`
and `Closure` carry their frames inline (the `mod.rs` tests build
`Instruction::Branch(frame, frame)` and `Closure { frame, .. }` directly). -/
inductive Instruction where
  | arith (op : ArithInstruction)
  | cmp (op : CmpInstruction)
  | pushInt (i : Int)
  | pushBool (b : Bool)
  | branch (tru fls : List Instruction)
  | var (n : Name)
  | closure (name : Name) (arg : Name) (frame : List Instruction)
  | call
  | popEnv

/-- `machine::program::Frame = Vec<Instruction>`. -/
abbrev Frame := List Instruction

/-- `machine::value::Closure`: argument name, body frame, environment index
into the machine's storage (the environment heap). -/
structure ClosureV where
  arg : Name
  frame : Frame
  env : Nat

/-- `machine::value::Value`. -/
inductive Value where
  | int (i : Int)
  | bool (b : Bool)
  | closure (c : ClosureV)

/-- `machine::Env = HashMap<Name, Value>`, as an insertion-ordered
association list. -/
abbrev Env := List (Name × Value)

/-- `HashMap::insert`: replace the binding in place if the key is present,
otherwise add it (at the end, fixing the unspecified hash order). -/
def envInsert (key : Name) (value : Value) : Env → Env
  | [] => [(key, value)]
  | (k, v) :: rest =>
    if k = key then (key, value) :: rest else (k, v) :: envInsert key value rest

/-- `HashMap::get`. -/
def envLookup (key : Name) : Env → Option Value
  | [] => none
  | (k, v) :: rest => if k = key then some v else envLookup key rest

/-- Error outcomes.  `runtime` is `runtime_error`, `fatal` is `fatal_error`
(the `"Fatal: {} :("` wrapper, we keep the inner message), and `panic` is a
Rust panic: not a `RuntimeError` value at all but an abort of the process. -/
inductive Err where
  | runtime (msg : String)
  | fatal (msg : String)
  | panic (msg : String)
deriving DecidableEq, Repr

/-- `machine::Machine`.  The `program` field of the Rust struct is only read
at construction time (it seeds `activations`), so it is not part of the
state here.  All four stacks have their top at the head. -/
structure Machine where
  storage : List Env
  values : List Value
  environments : List Env
  activations : List (List Instruction)

/-- `Machine::new`. -/
def Machine.new (program : Frame) : Machine :=
  { storage := []
    values := []
    environments := [[]]
    activations := [program] }

/-- `Machine::push_value` (with `push_int`/`push_bool` as wrappers below). -/
def Machine.pushValue (m : Machine) (v : Value) : Machine :=
  { m with values := v :: m.values }

def Machine.pushInt (m : Machine) (i : Int) : Machine :=
  m.pushValue (.int i)

def Machine.pushBool (m : Machine) (b : Bool) : Machine :=
  m.pushValue (.bool b)

/-- `Machine::pop_value`. -/
def Machine.popValue (m : Machine) : Except Err (Value × Machine) :=
  match m.values with
  | [] => .error (.fatal "empty stack")
  | v :: rest => .ok (v, { m with values := rest })

/-- `Machine::pop_int` = `pop_value` + `Value::into_int`. -/
def Machine.popInt (m : Machine) : Except Err (Int × Machine) :=
  match m.popValue with
  | .error e => .error e
  | .ok (.int i, m) => .ok (i, m)
  | .ok (_, _) => .error (.fatal "runtime type error")

/-- `Machine::pop_bool` = `pop_value` + `Value::into_bool`. -/
def Machine.popBool (m : Machine) : Except Err (Bool × Machine) :=
  match m.popValue with
  | .error e => .error e
  | .ok (.bool b, m) => .ok (b, m)
  | .ok (_, _) => .error (.fatal "runtime type error")

/-- `Machine::pop_closure` = `pop_value` + `Value::into_closure`. -/
def Machine.popClosure (m : Machine) : Except Err (ClosureV × Machine) :=
  match m.popValue with
  | .error e => .error e
  | .ok (.closure c, m) => .ok (c, m)
  | .ok (_, _) => .error (.fatal "runtime type error")

/-- `Machine::current_env`: `self.environments.last().unwrap()` — the
`unwrap` panics (it does not produce a reportable error) when the
environment stack is empty. -/
def Machine.currentEnv (m : Machine) : Except Err Env :=
  match m.environments with
  | [] => .error (.panic "called Option::unwrap() on a None value")
  | e :: _ => .ok e

/-- `Machine::lookup`. -/
def Machine.lookup (m : Machine) (name : Name) : Except Err Value :=
  match m.currentEnv with
  | .error e => .error e
  | .ok env =>
    match envLookup name env with
    | some v => .ok v
    | none => .error (.fatal "undefined variable")

/-- `Machine::pop_env`: the length-zero case is a checked, fatal error. -/
def Machine.popEnv (m : Machine) : Except Err Machine :=
  match m.environments with
  | [] => .error (.fatal "no environment")
  | _ :: rest => .ok { m with environments := rest }

/-- `Machine::switch_frame`. -/
def Machine.switchFrame (m : Machine) (frame : List Instruction) : Machine :=
  { m with activations := frame :: m.activations }

/-- `Machine::fetch_instruction`: pop the top activation; if it has a head
instruction, push the non-empty tail back and return the head.  Note that a
popped *empty* activation is simply dropped and `none` is returned even
though more activations may remain below. -/
def Machine.fetchInstruction (m : Machine) : Option Instruction × Machine :=
  match m.activations with
  | [] => (none, m)
  | act :: rest =>
    match act with
    | [] => (none, { m with activations := rest })
    | inst :: tail =>
      (some inst,
        { m with activations := if tail.isEmpty then rest else tail :: rest })

/-- `i64::MIN`. -/
def i64Min : Int := -(2 ^ 63)

/-- Two's-complement wrap-around into the `i64` range, the release-build
behaviour of Rust `+`, `-`, `*` on `i64` (spec §4.4: "the reference chooses
wrapping"). -/
def wrap64 (x : Int) : Int := (x + 2 ^ 63) % 2 ^ 64 - 2 ^ 63

/-- `<ArithInstruction as Exec>::exec`: pop `op2`, pop `op1`, push
`op1 op op2`.  `Div` checks the divisor for zero (reportable runtime
error); the division itself is Rust `/`, which truncates toward zero and
panics on the overflowing `i64::MIN / -1`. -/
def ArithInstruction.exec (inst : ArithInstruction) (m : Machine) :
    Except Err Machine :=
  match m.popInt with
  | .error e => .error e
  | .ok (op2, m) =>
    match m.popInt with
    | .error e => .error e
    | .ok (op1, m) =>
      match inst with
      | .add => .ok (m.pushInt (wrap64 (op1 + op2)))
      | .sub => .ok (m.pushInt (wrap64 (op1 - op2)))
      | .mul => .ok (m.pushInt (wrap64 (op1 * op2)))
      | .div =>
        if op2 = 0 then
          .error (.runtime "Division by zero")
        else if op1 = i64Min ∧ op2 = -1 then
          .error (.panic "attempt to divide with overflow")
        else
          .ok (m.pushInt (op1.tdiv op2))

/-- `<CmpInstruction as Exec>::exec`: pop `op2`, pop `op1`, push
`Bool(op1 op op2)`. -/
def CmpInstruction.exec (inst : CmpInstruction) (m : Machine) :
    Except Err Machine :=
  match m.popInt with
  | .error e => .error e
  | .ok (op2, m) =>
    match m.popInt with
    | .error e => .error e
    | .ok (op1, m) =>
      match inst with
      | .lt => .ok (m.pushBool (decide (op1 < op2)))
      | .eq => .ok (m.pushBool (decide (op1 = op2)))
      | .gt => .ok (m.pushBool (decide (op1 > op2)))

/-- `<Instruction as Exec>::exec`. -/
def Instruction.exec (inst : Instruction) (m : Machine) : Except Err Machine :=
  match inst with
  | .arith op => op.exec m
  | .cmp op => op.exec m
  | .pushInt i => .ok (m.pushInt i)
  | .pushBool b => .ok (m.pushBool b)
  | .branch tru fls =>
    match m.popBool with
    | .error e => .error e
    | .ok (b, m) => .ok (m.switchFrame (if b then tru else fls))
  | .var name =>
    match m.lookup name with
    | .error e => .error e
    | .ok value => .ok (m.pushValue value)
  | .closure name arg frame =>
    match m.currentEnv with
    | .error e => .error e
    | .ok env =>
      let envIdx := m.storage.length
      let value := Value.closure ⟨arg, frame, envIdx⟩
      let env := envInsert name value env
      .ok { m with
              storage := m.storage ++ [env]
              values := value :: m.values }
  | .call =>
    match m.popValue with
    | .error e => .error e
    | .ok (argValue, m) =>
      match m.popClosure with
      | .error e => .error e
      | .ok (c, m) =>
        -- `machine.storage[env]`: Rust slice indexing panics out of bounds
        -- (no machine built by `Machine::new` ever reaches that).
        if c.env < m.storage.length then
          let env := envInsert c.arg argValue (m.storage.getD c.env [])
          .ok { m with
                  environments := env :: m.environments
                  activations := c.frame :: m.activations }
        else .error (.panic "index out of bounds")
  | .popEnv => m.popEnv

/-! ## The garbage collector (`Machine::gc` and `collect`) -/

/-- The threaded state of one `collect` call: the `moved: Map<old, new>`
map, the old heap (`mem::swap` leaves an empty environment in each moved
slot), the wave of moved environments, and `start_index`.  A fresh new
index is `start_index + wave.len()`. -/
structure GcSt where
  moved : List (Nat × Nat)
  oldEnvs : List Env
  wave : List Env
  startIndex : Nat

/-- `move_map.get(&closure.env)`. -/
def movedLookup (key : Nat) : List (Nat × Nat) → Option Nat
  | [] => none
  | (k, v) :: rest => if k = key then some v else movedLookup key rest

/-- The body of `collect`'s loop for one work-list value: rewrite an
already-moved closure in place, otherwise move its environment out of the
old heap into the wave and record the new index.  The Rust indexing
`old_envs[closure.env]` panics out of bounds; machine-reachable states keep
every index in bounds, and `List.getD` keeps the model total. -/
def gcValue (v : Value) (s : GcSt) : Value × GcSt :=
  match v with
  | .closure c =>
    match movedLookup c.env s.moved with
    | some newIndex => (.closure ⟨c.arg, c.frame, newIndex⟩, s)
    | none =>
      let newIndex := s.startIndex + s.wave.length
      let env := s.oldEnvs.getD c.env []
      (.closure ⟨c.arg, c.frame, newIndex⟩,
        { moved := (c.env, newIndex) :: s.moved
          oldEnvs := s.oldEnvs.set c.env []
          wave := s.wave ++ [env]
          startIndex := s.startIndex })
  | v => (v, s)

/-- `collect` over a list of values (rewritten in place, in order). -/
def gcValues : List Value → GcSt → List Value × GcSt
  | [], s => ([], s)
  | v :: rest, s =>
    let (v, s) := gcValue v s
    let (rest, s) := gcValues rest s
    (v :: rest, s)

/-- `collect` over the values of one environment (`env.iter_mut()`). -/
def gcEnv : Env → GcSt → Env × GcSt
  | [], s => ([], s)
  | (k, v) :: rest, s =>
    let (v, s) := gcValue v s
    let (rest, s) := gcEnv rest s
    ((k, v) :: rest, s)

/-- `collect` over a list of environments. -/
def gcEnvs : List Env → GcSt → List Env × GcSt
  | [], s => ([], s)
  | env :: rest, s =>
    let (env, s) := gcEnv env s
    let (rest, s) := gcEnvs rest s
    (env :: rest, s)

/-- The wave loop of `Machine::gc`: process `new_storage[done..]` with
`collect` (start index `new_storage.len()`), stop when the wave is empty,
else extend `new_storage` with the wave.  Each non-empty wave moves at
least one environment out of the old heap, so `old heap size + 1` rounds of
fuel always suffice (the Rust `loop` has no fuel). -/
def gcLoop : Nat → List Env → Nat → List (Nat × Nat) → List Env → List Env
  | 0, newStorage, _, _, _ => newStorage
  | fuel + 1, newStorage, done, moved, oldEnvs =>
    let moveIndex := newStorage.length
    let (rest, s) :=
      gcEnvs (newStorage.drop done) ⟨moved, oldEnvs, [], moveIndex⟩
    if s.wave.isEmpty then
      newStorage.take done ++ rest
    else
      gcLoop fuel (newStorage.take done ++ rest ++ s.wave) newStorage.length
        s.moved s.oldEnvs

/-- `Machine::gc`.  The roots are every value on the value stack and every
value in every active environment; the Rust code walks both `Vec`s from the
bottom, so the head-is-top lists are reversed here.  The initial `collect`
(start index `0`) produces the first `new_storage`; the wave loop then
moves everything transitively reachable, and the heap is replaced.  (The
Rust `assert!(new_storage.len() <= self.storage.len())` never fires and has
no observable effect.) -/
def Machine.gc (m : Machine) : Machine :=
  let s0 : GcSt := ⟨[], m.storage, [], 0⟩
  let (valuesRev, s1) := gcValues m.values.reverse s0
  let (envsRev, s2) := gcEnvs m.environments.reverse s1
  let newStorage := gcLoop (m.storage.length + 1) s2.wave 0 s2.moved s2.oldEnvs
  { m with
      values := valuesRev.reverse
      environments := envsRev.reverse
      storage := newStorage }

/-! ## The fetch/execute loop (`Machine::exec`) -/

/-- One iteration of the `while let` loop in `Machine::exec`: fetch, on an
instruction execute it, bump the step counter and collect garbage when
`step % interval == 0`.  `gcEvery = none` is the never-collect variant;
the source code is `gcEvery = some 92`. -/
inductive StepOut where
  | done (m : Machine)
  | fail (e : Err)
  | next (s : Nat × Machine)

def loopStep (gcEvery : Option Nat) (s : Nat × Machine) : StepOut :=
  match s.2.fetchInstruction with
  | (none, m) => .done m
  | (some inst, m) =>
    let step := s.1 + 1
    match inst.exec m with
    | .error e => .fail e
    | .ok m =>
      match gcEvery with
      | none => .next (step, m)
      | some k => .next (step, if step % k = 0 then m.gc else m)

/-- The fuelled `while let` loop; `none` is fuel exhaustion (divergence). -/
def execLoop (gcEvery : Option Nat) : Nat → Nat × Machine →
    Option (Except Err Machine)
  | 0, _ => none
  | fuel + 1, s =>
    match loopStep gcEvery s with
    | .done m => some (.ok m)
    | .fail e => some (.error e)
    | .next s => execLoop gcEvery fuel s

/-- The tail of `Machine::exec` after the loop:
`pop_value().and_then(...)` — fail fatally unless exactly one value. -/
def finishExec (m : Machine) : Except Err Value :=
  match m.popValue with
  | .error e => .error e
  | .ok (v, m) =>
    if m.values.isEmpty then .ok v
    else .error (.fatal "more then one value on stack left")

/-- `Machine::exec`, parameterised by the collection interval. -/
def Machine.execWith (gcEvery : Option Nat) (fuel : Nat) (m : Machine) :
    Option (Except Err Value) :=
  (execLoop gcEvery fuel (0, m)).map fun r =>
    match r with
    | .error e => .error e
    | .ok m => finishExec m

/-- `Machine::exec` as in the source: garbage collection every 92
instructions. -/
def Machine.exec (fuel : Nat) (m : Machine) : Option (Except Err Value) :=
  m.execWith (some 92) fuel

/-! ## The core IR and the desugarer (`src/src/ir.rs`) -/

/-- `ir::BinOpKind`. -/
inductive BinOpKind where
  | add
  | sub
  | div
  | mul
  | lt
  | eq
  | gt
deriving DecidableEq, Repr

/-- `ir::Ir`.  (`ifE`/`funE` stand for the Rust `If`/`Fun` variants, whose
names are Lean keywords.) -/
inductive Ir where
  | var (n : Name)
  | intLiteral (i : Int)
  | boolLiteral (b : Bool)
  | binOp (kind : BinOpKind) (lhs rhs : Ir)
  | ifE (cond tru fls : Ir)
  | funE (funName argName : Name) (body : Ir)
  | apply (f arg : Ir)
deriving DecidableEq, Repr

/-- `ir::Fun`, the struct that `desugar_fun` returns and `fun_wrapper` and
`let_` consume field by field. -/
structure IrFun where
  funName : Name
  argName : Name
  body : Ir
deriving DecidableEq, Repr

/-- `impl Into<Ir> for Fun`. -/
def IrFun.intoIr (f : IrFun) : Ir :=
  .funE f.funName f.argName f.body

/-- `ir::Renamer`: `HashMap<&str, Name>` as an insertion-ordered list; the
stored id of the k-th inserted identifier is `k = names.len()` at insertion
time. -/
structure Renamer where
  names : List (String × Nat)
deriving DecidableEq, Repr

def Renamer.find (r : Renamer) (name : String) : Option Nat :=
  (r.names.find? fun p => p.1 = name).map (·.2)

/-- `Renamer::lookup`: insert `names.len()` if absent, return the stored id
doubled. -/
def Renamer.lookup (r : Renamer) (name : String) : Name × Renamer :=
  match r.find name with
  | some id => (id * 2, r)
  | none =>
    let newId := r.names.length
    (newId * 2, ⟨r.names ++ [(name, newId)]⟩)

/-- `Renamer::empty`. -/
def Renamer.empty : Renamer := ⟨[]⟩

/-- The surface types, `syntax::Type` (also `typecheck::Type`, whose
`as_type` conversion is shape-for-shape). -/
inductive Ty where
  | int
  | bool
  | arrow (l r : Ty)
deriving DecidableEq, Repr

/-- `syntax::ArithOp`. -/
inductive ArithOp where
  | mul
  | div
  | add
  | sub
deriving DecidableEq, Repr

/-- `syntax::CmpOp`. -/
inductive CmpOp where
  | eq
  | lt
  | gt
deriving DecidableEq, Repr

mutual

/-- Modelled from the spec: the surface AST (spec §6.1) with the `LetFun`
and `LetRec` binding forms.  The crate revision defining this `Expr` (the
one `ir.rs`, `typecheck.rs` and `tests.rs` are written against, with
`Fun { fun_name, arg_name, arg_type, ret_type, body }`,
`LetFun { fun, body }` and `LetRec { funs, body }`) is not
under `src/`; the variants and fields follow §6.1 and the field accesses
in `ir.rs` and `typecheck.rs`. -/
inductive Expr where
  | var (ident : String)
  | numberLit (n : Int)
  | boolLit (b : Bool)
  | arithBinOp (kind : ArithOp) (lhs rhs : Expr)
  | cmpBinOp (kind : CmpOp) (lhs rhs : Expr)
  | ifE (cond tru fls : Expr)
  | funE (f : SFun)
  | letFun (f : SFun) (body : Expr)
  | letRec (funs : List SFun) (body : Expr)
  | apply (f arg : Expr)

inductive SFun where
  | mk (funName argName : String) (argType retType : Ty) (body : Expr)
end

def SFun.funName : SFun → String
  | .mk n _ _ _ _ => n

def SFun.argName : SFun → String
  | .mk _ a _ _ _ => a

def SFun.argType : SFun → Ty
  | .mk _ _ t _ _ => t

def SFun.retType : SFun → Ty
  | .mk _ _ _ t _ => t

def SFun.body : SFun → Expr
  | .mk _ _ _ _ b => b

/-- `impl From<syntax::ArithOp> for BinOpKind`. -/
def BinOpKind.ofArith : ArithOp → BinOpKind
  | .add => .add
  | .sub => .sub
  | .mul => .mul
  | .div => .div

/-- `impl From<syntax::CmpOp> for BinOpKind`. -/
def BinOpKind.ofCmp : CmpOp → BinOpKind
  | .lt => .lt
  | .eq => .eq
  | .gt => .gt

/-- `ir::if_eq`. -/
def ifEq (lhs rhs tru fls : Ir) : Ir :=
  .ifE (.binOp .eq lhs rhs) tru fls

/-- `ir::undefined`: the `0 / 0` expression the `let rec` dispatcher falls
back to for an out-of-range tag. -/
def undefinedIr : Ir :=
  .binOp .div (.intLiteral 0) (.intLiteral 0)

/-- `Ir::apply`. -/
def Ir.applyTo (f : Ir) (arg : Ir) : Ir :=
  .apply f arg

/-- `ir::let_`: `(λ_. body) fun`, the anonymous self-name is the reserved
name `1`. -/
def letIr (f : IrFun) (body : Ir) : Ir :=
  .apply (.funE 1 f.funName body) f.intoIr

/-- `ir::lets`: `bindings.pop()` wraps the last binding innermost, so the
net effect is a right fold of `let_` over the bindings. -/
def lets (bindings : List IrFun) (body : Ir) : Ir :=
  bindings.foldr letIr body

/-- `ir::fun_wrapper`: the tag-`my_tag` member of a `let rec` group, with
one shadowing binding `λx. D j x` (x the reserved name `1`, D the reserved
dispatch name `3`) for every sibling. -/
def funWrapper (myTag : Int) (f : IrFun) (funNames : List Name) : Ir :=
  let dispatchName : Name := 3
  let bindins :=
    (funNames.enum.filterMap fun p =>
      let funTag : Int := p.1
      if funTag = myTag then none
      else
        let x : Name := 1
        some (⟨p.2, x,
          ((Ir.var dispatchName).applyTo (.intLiteral funTag)).applyTo
            (.var x)⟩ : IrFun))
  .funE f.funName f.argName (lets bindins f.body)

/-- The dispatch `if` chain of `<syntax::LetRec as Sugar>::desugar`: a left
fold starting from `undefined()`, so the last member's tag test ends up
outermost. -/
def letRecDispatchIf (funs : List IrFun) (funNames : List Name) : Ir :=
  let dispatchArg : Name := 5
  funs.enum.foldl
    (fun result p =>
      ifEq (.var dispatchArg) (.intLiteral p.1)
        (funWrapper p.1 p.2 funNames) result)
    undefinedIr

mutual

/-- `<Expr as Sugar>::desugar`, with the `Renamer` state passed
explicitly. -/
def Expr.desugarR : Expr → Renamer → Ir × Renamer
  | .var v, r =>
    let (n, r) := r.lookup v
    (.var n, r)
  | .numberLit n, r => (.intLiteral n, r)
  | .boolLit b, r => (.boolLiteral b, r)
  | .arithBinOp kind lhs rhs, r =>
    let (l, r) := lhs.desugarR r
    let (rh, r) := rhs.desugarR r
    (.binOp (.ofArith kind) l rh, r)
  | .cmpBinOp kind lhs rhs, r =>
    let (l, r) := lhs.desugarR r
    let (rh, r) := rhs.desugarR r
    (.binOp (.ofCmp kind) l rh, r)
  | .ifE cond tru fls, r =>
    let (c, r) := cond.desugarR r
    let (t, r) := tru.desugarR r
    let (f, r) := fls.desugarR r
    (.ifE c t f, r)
  | .funE f, r =>
    let (fn, r) := desugarFun f r
    (fn.intoIr, r)
  | .letFun f body, r =>
    -- `<syntax::LetFun as Sugar>::desugar`: desugar the function, then the
    -- body, then build `Apply { fun: Fun { 1, name(f), body' }, arg: fun' }`;
    -- the third `lookup` hits the entry `desugar_fun` created, so the
    -- renamer is unchanged by it.
    let (fn, r) := desugarFun f r
    let (expr, r) := body.desugarR r
    let (argName, r) := r.lookup f.funName
    (.apply (.funE 1 argName expr) fn.intoIr, r)
  | .letRec funs body, r =>
    -- `<syntax::LetRec as Sugar>::desugar`.
    let (funsIr, r) := desugarFuns funs r
    let funNames := funsIr.map (·.funName)
    let dispatchIf := letRecDispatchIf funsIr funNames
    let anonName : Name := 1
    let dispatchName : Name := 3
    let dispatchArg : Name := 5
    let dispatchFun : Ir := .funE dispatchName dispatchArg dispatchIf
    let (bodyIr, r) := body.desugarR r
    let result := funNames.enum.foldl
      (fun result p =>
        (Ir.funE anonName p.2 result).applyTo
          ((Ir.var dispatchName).applyTo (.intLiteral p.1)))
      bodyIr
    ((Ir.funE anonName dispatchName result).applyTo dispatchFun, r)
  | .apply f arg, r =>
    let (fn, r) := f.desugarR r
    let (a, r) := arg.desugarR r
    (.apply fn a, r)

/-- `ir::desugar_fun`: look up the function name, then the argument name,
then desugar the body. -/
def desugarFun : SFun → Renamer → IrFun × Renamer
  | .mk funName argName _ _ body, r =>
    let (fn, r) := r.lookup funName
    let (an, r) := r.lookup argName
    let (b, r) := body.desugarR r
    (⟨fn, an, b⟩, r)

/-- `self.funs.iter().map(|fun| desugar_fun(fun, renamer)).collect()`. -/
def desugarFuns : List SFun → Renamer → List IrFun × Renamer
  | [], r => ([], r)
  | f :: rest, r =>
    let (fn, r) := desugarFun f r
    let (fns, r) := desugarFuns rest r
    (fn :: fns, r)

end

/-- `ir::desugar`: run with an empty renamer. -/
def desugar (e : Expr) : Ir :=
  (e.desugarR .empty).1

/-! ## The compiler (`src/src/compile.rs`, spec §4.3) -/

/-- The `CompileInstruction` impls. -/
def BinOpKind.compileInstr : BinOpKind → Instruction
  | .add => .arith .add
  | .sub => .arith .sub
  | .mul => .arith .mul
  | .div => .arith .div
  | .lt => .cmp .lt
  | .eq => .cmp .eq
  | .gt => .cmp .gt

/-- The compiler, `src/src/compile.rs`.  The source file compiles the
let-free surface AST, which after renaming is node-for-node the core IR
(spec §4.3 gives the same emission table over IR nodes); its `get_name`
closure interns identifier strings to dense numbers, which on the renamed
IR is the identity.  Emission per the source: post-order for binary
operations and application, a `Branch` of two freshly compiled frames for
`If`, and for `Fun` a single `Closure` instruction whose frame is the
compiled body followed by `PopEnv`. -/
def Ir.compile : Ir → Frame
  | .var n => [.var n]
  | .intLiteral i => [.pushInt i]
  | .boolLiteral b => [.pushBool b]
  | .binOp kind lhs rhs => lhs.compile ++ rhs.compile ++ [kind.compileInstr]
  | .ifE cond tru fls => cond.compile ++ [.branch tru.compile fls.compile]
  | .funE name arg body => [.closure name arg (body.compile ++ [.popEnv])]
  | .apply f arg => f.compile ++ arg.compile ++ [.call]

/-! ## The typechecker (`src/src/typecheck.rs`) -/

/-- `context::StackContext`: a stack of bindings; `lookup` finds the most
recently pushed match (the Rust `Vec` is searched in reverse, the head of
this list is the most recent binding). -/
abbrev TyCtx := List (String × Ty)

def ctxLookup (name : String) : TyCtx → Option Ty
  | [] => none
  | (k, t) :: rest => if k = name then some t else ctxLookup name rest

mutual

/-- `<Expr as Typecheck>::check` (and the per-node impls) from
`src/src/typecheck.rs`. -/
def Expr.check : Expr → TyCtx → Except String Ty
  | .var ident, ctx =>
    match ctxLookup ident ctx with
    | some t => .ok t
    | none => .error "Unbound variable"
  | .numberLit _, _ => .ok .int
  | .boolLit _, _ => .ok .bool
  | .arithBinOp _ lhs rhs, ctx =>
    match lhs.check ctx with
    | .error e => .error e
    | .ok t1 =>
      if t1 ≠ Ty.int then .error "Expected int" else
      match rhs.check ctx with
      | .error e => .error e
      | .ok t2 => if t2 ≠ Ty.int then .error "Expected int" else .ok .int
  | .cmpBinOp _ lhs rhs, ctx =>
    match lhs.check ctx with
    | .error e => .error e
    | .ok t1 =>
      if t1 ≠ Ty.int then .error "Expected int" else
      match rhs.check ctx with
      | .error e => .error e
      | .ok t2 => if t2 ≠ Ty.int then .error "Expected int" else .ok .bool
  | .ifE cond tru fls, ctx =>
    match cond.check ctx with
    | .error e => .error e
    | .ok tc =>
      if tc ≠ Ty.bool then .error "Expected bool" else
      match tru.check ctx with
      | .error e => .error e
      | .ok t1 =>
        match fls.check ctx with
        | .error e => .error e
        | .ok t2 =>
          if t1 = t2 then .ok t1
          else .error "Arms of an if have different types"
  | .funE f, ctx => f.check ctx
  | .letFun f body, ctx =>
    match f.check ctx with
    | .error e => .error e
    | .ok funType => body.check ((f.funName, funType) :: ctx)
  | .letRec funs body, ctx =>
    -- Modelled from the spec: `typecheck.rs` under `src/` predates the
    -- `LetRec` variant (its `match` has no arm for it).  Per §6.1/§3 each
    -- member is an annotated `Fun`; the natural rule puts every member's
    -- arrow type in scope, checks each body like `Fun` does, and checks
    -- the `in` body under the same bindings.
    let group := funs.map fun f => (f.funName, Ty.arrow f.argType f.retType)
    match checkRecFuns funs (group.reverse ++ ctx) with
    | .error e => .error e
    | .ok _ => body.check (group.reverse ++ ctx)
  | .apply f arg, ctx =>
    match f.check ctx with
    | .error e => .error e
    | .ok (.arrow argT retT) =>
      match arg.check ctx with
      | .error e => .error e
      | .ok t => if t = argT then .ok retT else .error "Expected argument type"
    | .ok _ => .error "Not a function"

/-- `<Fun as Typecheck>::check`: push the argument binding, then the
self-name with the arrow type, check the body against the annotated return
type. -/
def SFun.check : SFun → TyCtx → Except String Ty
  | .mk funName argName argType retType body, ctx =>
    let result := Ty.arrow argType retType
    match body.check ((funName, result) :: (argName, argType) :: ctx) with
    | .error e => .error e
    | .ok t => if t = retType then .ok result else .error "Expected return type"

/-- Modelled from the spec: check every member body of a `let rec` group
under the group context (each additionally binds its own argument and
self-name as `Fun` does). -/
def checkRecFuns : List SFun → TyCtx → Except String Unit
  | [], _ => .ok ()
  | f :: rest, ctx =>
    match SFun.check f ctx with
    | .error e => .error e
    | .ok _ => checkRecFuns rest ctx

end

/-- `typecheck::typecheck`: check in the empty context. -/
def typecheck (e : Expr) : Except String Ty :=
  e.check []

/-! ## Derived notions used by the statements below -/

/-- States the loop can reach from a start state: `loopStep`-iteration. -/
inductive Reaches (gcEvery : Option Nat) :
    Nat × Machine → Nat × Machine → Prop where
  | refl (s : Nat × Machine) : Reaches gcEvery s s
  | step {s s' s'' : Nat × Machine} :
      Reaches gcEvery s s' → loopStep gcEvery s' = .next s'' →
      Reaches gcEvery s s''

def isPopEnvInstr : Instruction → Bool
  | .popEnv => true
  | _ => false

/-- The number of top-level `PopEnv` instructions of a frame: how many
environment pops executing the frame itself will perform. -/
def framePops (f : List Instruction) : Nat :=
  (f.filter isPopEnvInstr).length

/-- Environment pops still owed by the whole activation stack. -/
def actsPops (acts : List (List Instruction)) : Nat :=
  (acts.map framePops).sum

mutual

/-- Frames the compiler can produce, instruction by instruction: `Branch`
arms owe no environment pop, `Closure` body frames owe exactly one. -/
def wfInstr : Instruction → Bool
  | .branch tru fls =>
    framePops tru = 0 && framePops fls = 0 && wfFrame tru && wfFrame fls
  | .closure _ _ frame => framePops frame = 1 && wfFrame frame
  | _ => true

def wfFrame : List Instruction → Bool
  | [] => true
  | i :: rest => wfInstr i && wfFrame rest

end

def wfValue : Value → Bool
  | .closure c => framePops c.frame = 1 && wfFrame c.frame
  | _ => true

def wfEnv (e : Env) : Bool :=
  e.all fun p => wfValue p.2

/-- The machine invariant behind claim C10: the environment stack always
holds exactly one environment more than the activation stack still owes,
and every frame in sight is compiler-shaped. -/
structure MInv (m : Machine) : Prop where
  balance : m.environments.length = 1 + actsPops m.activations
  acts : ∀ a ∈ m.activations, wfFrame a = true
  values : ∀ v ∈ m.values, wfValue v = true
  envs : ∀ e ∈ m.environments, wfEnv e = true
  storage : ∀ e ∈ m.storage, wfEnv e = true

/-! Relations for the GC refinement (claim C2).  `σ` is a partial renaming
of old heap indices to new heap indices. -/

/-- Values identical up to a renaming of closure environment indices. -/
def valRel (σ : Nat → Option Nat) : Value → Value → Prop
  | .int a, .int b => a = b
  | .bool a, .bool b => a = b
  | .closure c, .closure d =>
    c.arg = d.arg ∧ c.frame = d.frame ∧ σ c.env = some d.env
  | _, _ => False

/-- Environments identical binding-for-binding up to `valRel`. -/
def envRel (σ : Nat → Option Nat) (e₁ e₂ : Env) : Prop :=
  List.Forall₂ (fun p q => p.1 = q.1 ∧ valRel σ p.2 q.2) e₁ e₂

/-- Machine states that differ only by a renaming (and garbage) of the
environment heap. -/
structure MRel (σ : Nat → Option Nat) (m₁ m₂ : Machine) : Prop where
  inj : ∀ i i' j, σ i = some j → σ i' = some j → i = i'
  values : List.Forall₂ (valRel σ) m₁.values m₂.values
  envs : List.Forall₂ (envRel σ) m₁.environments m₂.environments
  acts : m₁.activations = m₂.activations
  domLt : ∀ i j, σ i = some j → i < m₁.storage.length ∧ j < m₂.storage.length
  storage : ∀ i j, σ i = some j →
    envRel σ (m₁.storage.getD i []) (m₂.storage.getD j [])

/-- Every closure environment index in sight points into the heap. -/
def validValue (heapLen : Nat) : Value → Prop
  | .closure c => c.env < heapLen
  | _ => True

def validEnv (heapLen : Nat) (e : Env) : Prop :=
  ∀ p ∈ e, validValue heapLen p.2

/-- Heap-index validity of a whole machine state. -/
structure Valid (m : Machine) : Prop where
  values : ∀ v ∈ m.values, validValue m.storage.length v
  envs : ∀ e ∈ m.environments, validEnv m.storage.length e
  storage : ∀ e ∈ m.storage, validEnv m.storage.length e

/-- Observable equality of results: integers and booleans agree exactly;
closures agree on argument name and code (their heap index is a private
representation detail the collector may rewrite). -/
def obsRel : Value → Value → Prop
  | .int a, .int b => a = b
  | .bool a, .bool b => a = b
  | .closure c, .closure d => c.arg = d.arg ∧ c.frame = d.frame
  | _, _ => False

/-- Observable equality of `exec` outcomes: out of fuel together, the very
same error, or observably equal values. -/
def execResRel : Option (Except Err Value) → Option (Except Err Value) → Prop
  | none, none => True
  | some (.error e₁), some (.error e₂) => e₁ = e₂
  | some (.ok v₁), some (.ok v₂) => obsRel v₁ v₂
  | _, _ => False

/-- The expression `(-9223372036854775808) / (-1)`: well-typed, closed, and
the divisor is not zero, yet Rust's division-overflow check panics. -/
def divOverflowExpr : Expr :=
  .arithBinOp .div (.numberLit (-(2 ^ 63))) (.numberLit (-1))

/-- A hand-written entry frame that calls a closure whose body frame lacks
the trailing `PopEnv` (the compiler always emits it): the run succeeds with
the callee's environment still on the stack. -/
def unbalancedProg : Frame :=
  [.closure 0 1 [.pushInt 7], .pushInt 5, .call]

/-- A program whose result is a closure: calling the outer closure
allocates an environment and returns an inner closure capturing it.  The
no-GC run leaves the captured environment at heap index 1; a collection
compacts it to index 0. -/
def closureResultProg : Frame :=
  [.closure 0 1 [.closure 2 3 [.var 3, .popEnv], .popEnv],
   .pushInt 42, .call]

/-- Invariant of the collector state while one collection runs over the
original heap `S`: the `moved` map is a bijection onto an initial segment
of new indices, moved slots of the old heap have been emptied, unmoved
slots still hold their original environment, and the wave holds the moved
environments (unrewritten) in new-index order. -/
structure GcInv (S : List Env) (s : GcSt) : Prop where
  keysLt : ∀ p ∈ s.moved, p.1 < S.length
  keysNodup : (s.moved.map Prod.fst).Nodup
  sndSeq : s.moved.map Prod.snd = (List.range s.moved.length).reverse
  total : s.moved.length = s.startIndex + s.wave.length
  oldLen : s.oldEnvs.length = S.length
  oldMoved : ∀ i j, (i, j) ∈ s.moved → s.oldEnvs.getD i [] = []
  oldKept : ∀ i, movedLookup i s.moved = none →
    s.oldEnvs.getD i [] = S.getD i []
  waveCont : ∀ i j, (i, j) ∈ s.moved → s.startIndex ≤ j →
    s.wave.getD (j - s.startIndex) [] = S.getD i []

/-- Invariant of the wave loop of `Machine::gc`: positions below `done` in
the new heap have been rewritten through `moved`, positions at or above
`done` still hold the original environment they were moved from. -/
structure LoopInv (S : List Env) (ns : List Env) (done : Nat)
    (mv : List (Nat × Nat)) (olds : List Env) : Prop where
  base : GcInv S ⟨mv, olds, [], ns.length⟩
  doneLe : done ≤ ns.length
  processed : ∀ i j, (i, j) ∈ mv → j < done →
    envRel (fun k => movedLookup k mv) (S.getD i []) (ns.getD j [])
  pending : ∀ i j, (i, j) ∈ mv → done ≤ j → ns.getD j [] = S.getD i []

/-! ## Helper lemmas -/

theorem wrap64_mem_range (x : Int) : i64Min ≤ wrap64 x ∧ wrap64 x < 2 ^ 63 := by
  have h0 : ((2 : Int) ^ 64) ≠ 0 := by decide
  have h1 : (0 : Int) < 2 ^ 64 := by decide
  have hge := Int.emod_nonneg (x + 2 ^ 63) h0
  have hlt := Int.emod_lt_of_pos (x + 2 ^ 63) h1
  unfold wrap64 i64Min
  omega

theorem wrap64_congruent (x : Int) : (2 : Int) ^ 64 ∣ x - wrap64 x := by
  refine ⟨(x + 2 ^ 63) / 2 ^ 64, ?_⟩
  have h := Int.ediv_add_emod (x + 2 ^ 63) (2 ^ 64)
  unfold wrap64
  omega

/-! ### Renamer lemmas (for C4 and C9) -/

theorem Renamer.lookup_of_find {r : Renamer} {n : String} {id : Nat}
    (h : r.find n = some id) : r.lookup n = (id * 2, r) := by
  simp [Renamer.lookup, h]

/-- After any `lookup`, the looked-up string is interned, and the returned
name is twice its stored id. -/
theorem Renamer.lookup_self (r : Renamer) (n : String) :
    ∃ id, (r.lookup n).2.find n = some id ∧ (r.lookup n).1 = id * 2 := by
  cases h : r.find n with
  | some id => exact ⟨id, by simp [Renamer.lookup, h], by simp [Renamer.lookup, h]⟩
  | none =>
    refine ⟨r.names.length, ?_, by simp [Renamer.lookup, h]⟩
    have hfind : r.names.find? (fun p => p.1 = n) = none := by
      unfold Renamer.find at h
      cases hf : r.names.find? (fun p => p.1 = n) with
      | none => rfl
      | some p => rw [hf] at h; simp at h
    simp [Renamer.lookup, h, Renamer.find, List.find?_append, hfind]

/-- `lookup` only ever appends to the intern table. -/
theorem Renamer.lookup_names_extend (r : Renamer) (n : String) :
    ∃ t, (r.lookup n).2.names = r.names ++ t := by
  cases h : r.find n with
  | some id => exact ⟨[], by simp [Renamer.lookup, h]⟩
  | none => exact ⟨[(n, r.names.length)], by simp [Renamer.lookup, h]⟩

theorem Renamer.find_mono {r r' : Renamer} {n : String} {id : Nat}
    (hext : ∃ t, r'.names = r.names ++ t) (h : r.find n = some id) :
    r'.find n = some id := by
  obtain ⟨t, ht⟩ := hext
  unfold Renamer.find at h ⊢
  rw [ht, List.find?_append]
  cases hf : r.names.find? (fun p => p.1 = n) with
  | none => rw [hf] at h; simp at h
  | some p => rw [hf] at h; simpa using h

theorem extend_trans {α : Type} {a b c : List α}
    (h1 : ∃ t, b = a ++ t) (h2 : ∃ t, c = b ++ t) : ∃ t, c = a ++ t := by
  obtain ⟨t1, rfl⟩ := h1
  obtain ⟨t2, rfl⟩ := h2
  exact ⟨t1 ++ t2, by simp⟩

mutual

/-- Desugaring only ever appends to the intern table. -/
theorem Expr.desugarR_names_extend (e : Expr) (r : Renamer) :
    ∃ t, ((e.desugarR r).2).names = r.names ++ t := by
  cases e with
  | var v => simpa [Expr.desugarR] using r.lookup_names_extend v
  | numberLit n => exact ⟨[], by simp [Expr.desugarR]⟩
  | boolLit b => exact ⟨[], by simp [Expr.desugarR]⟩
  | arithBinOp kind lhs rhs =>
    simp only [Expr.desugarR]
    exact extend_trans (lhs.desugarR_names_extend r)
      (rhs.desugarR_names_extend (lhs.desugarR r).2)
  | cmpBinOp kind lhs rhs =>
    simp only [Expr.desugarR]
    exact extend_trans (lhs.desugarR_names_extend r)
      (rhs.desugarR_names_extend (lhs.desugarR r).2)
  | ifE cond tru fls =>
    simp only [Expr.desugarR]
    exact extend_trans (cond.desugarR_names_extend r)
      (extend_trans (tru.desugarR_names_extend (cond.desugarR r).2)
        (fls.desugarR_names_extend (tru.desugarR (cond.desugarR r).2).2))
  | funE f => simpa [Expr.desugarR] using desugarFun_names_extend f r
  | letFun f body =>
    simp only [Expr.desugarR]
    exact extend_trans (desugarFun_names_extend f r)
      (extend_trans (body.desugarR_names_extend (desugarFun f r).2)
        ((body.desugarR (desugarFun f r).2).2.lookup_names_extend f.funName))
  | letRec funs body =>
    simp only [Expr.desugarR]
    exact extend_trans (desugarFuns_names_extend funs r)
      (body.desugarR_names_extend (desugarFuns funs r).2)
  | apply f arg =>
    simp only [Expr.desugarR]
    exact extend_trans (f.desugarR_names_extend r)
      (arg.desugarR_names_extend (f.desugarR r).2)

theorem desugarFun_names_extend (f : SFun) (r : Renamer) :
    ∃ t, ((desugarFun f r).2).names = r.names ++ t := by
  cases f with
  | mk funName argName argType retType body =>
    simp only [desugarFun]
    exact extend_trans (r.lookup_names_extend funName)
      (extend_trans ((r.lookup funName).2.lookup_names_extend argName)
        (body.desugarR_names_extend ((r.lookup funName).2.lookup argName).2))

theorem desugarFuns_names_extend (fs : List SFun) (r : Renamer) :
    ∃ t, ((desugarFuns fs r).2).names = r.names ++ t := by
  cases fs with
  | nil => exact ⟨[], by simp [desugarFuns]⟩
  | cons f rest =>
    simp only [desugarFuns]
    exact extend_trans (desugarFun_names_extend f r)
      (desugarFuns_names_extend rest (desugarFun f r).2)

end

/-! ## The claims -/

/-- C1: the spec promises that for every well-typed closed surface
expression the pipeline returns a value of the assigned type or fails with
`DivisionByZero`, and §4.4 adds that arithmetic "must not crash the
process".  The code breaks this promise: `(-2^63) / (-1)` typechecks as
`int`, desugars and compiles cleanly, and then the machine's Rust `/`
panics with a division overflow — the process aborts instead of producing
a value or the `DivisionByZero` error. -/
theorem c1_pipeline_crashes_on_div_overflow :
    typecheck divOverflowExpr = .ok .int ∧
    (Machine.new (desugar divOverflowExpr).compile).exec 100 =
      some (.error (.panic "attempt to divide with overflow")) :=
  ⟨rfl, rfl⟩

/-- C4, counterexample: the renamer assigns the *reserved* name `0` to the
very first surface identifier it meets (`names.len() = 0`, doubled is `0`),
so "no name produced by the renamer for a surface identifier equals 0, 1,
3, or 5" fails already on the expression `x`. -/
theorem c4_counterexample :
    desugar (.var "x") = .var 0 ∧ (Renamer.empty.lookup "x").1 = 0 :=
  ⟨rfl, rfl⟩

/-- C4, amended: the renamer assigns `2·k` to the k-th distinct surface
identifier *counting from zero*, so every assigned name is even; the odd
reserved names 1, 3, 5 can never collide with a surface identifier, but
the reserved name 0 is exactly the name of the first identifier. -/
theorem c4_renamer_reserved_names (r : Renamer) (name : String) :
    (r.lookup name).1 % 2 = 0 ∧
    (r.lookup name).1 ≠ 1 ∧ (r.lookup name).1 ≠ 3 ∧ (r.lookup name).1 ≠ 5 ∧
    (r.find name = none → (r.lookup name).1 = 2 * r.names.length) := by
  cases h : r.find name with
  | some id =>
    have hl : r.lookup name = (id * 2, r) := by simp [Renamer.lookup, h]
    rw [hl]
    refine ⟨?_, ?_, ?_, ?_, fun hc => by cases hc⟩
    · show id * 2 % 2 = (0 : Nat); omega
    · show ¬ id * 2 = (1 : Nat); omega
    · show ¬ id * 2 = (3 : Nat); omega
    · show ¬ id * 2 = (5 : Nat); omega
  | none =>
    have hl : r.lookup name =
        (r.names.length * 2, ⟨r.names ++ [(name, r.names.length)]⟩) := by
      simp [Renamer.lookup, h]
    rw [hl]
    refine ⟨?_, ?_, ?_, ?_, fun _ => ?_⟩
    · show r.names.length * 2 % 2 = (0 : Nat); omega
    · show ¬ r.names.length * 2 = (1 : Nat); omega
    · show ¬ r.names.length * 2 = (3 : Nat); omega
    · show ¬ r.names.length * 2 = (5 : Nat); omega
    · show r.names.length * 2 = 2 * r.names.length; omega

theorem c4_renamer_reserved_names_witness :
    (Renamer.empty.lookup "q").1 % 2 = 0 ∧
    (Renamer.empty.lookup "q").1 ≠ 1 ∧ (Renamer.empty.lookup "q").1 ≠ 3 ∧
    (Renamer.empty.lookup "q").1 ≠ 5 ∧
    (Renamer.empty.find "q" = none →
      (Renamer.empty.lookup "q").1 = 2 * Renamer.empty.names.length) :=
  c4_renamer_reserved_names Renamer.empty "q"

/-- C5, counterexample: the claim promises that with *any* non-zero
divisor `Div` "pushes the quotient ... and never fails", but the divisor
`-1` with dividend `i64::MIN` makes Rust's `/` panic with a division
overflow. -/
theorem c5_counterexample :
    (-1 : Int) ≠ 0 ∧
    ArithInstruction.div.exec ⟨[], [.int (-1), .int i64Min], [[]], []⟩ =
      .error (.panic "attempt to divide with overflow") :=
  ⟨by decide, rfl⟩

/-- C5, amended: `Div` with divisor `0` raises the reportable runtime
error "Division by zero" for every dividend; with a non-zero divisor it
pushes the quotient truncated toward zero (`Int.tdiv` is
truncation-toward-zero division), **except** for dividend `-2^63` with
divisor `-1`, where the Rust division-overflow check panics. -/
theorem c5_division (op1 op2 : Int) (st env : List Env)
    (acts : List (List Instruction)) (rest : List Value) :
    (op2 = 0 →
      ArithInstruction.div.exec ⟨st, .int op2 :: .int op1 :: rest, env, acts⟩ =
        .error (.runtime "Division by zero")) ∧
    (op2 ≠ 0 → ¬(op1 = i64Min ∧ op2 = -1) →
      ArithInstruction.div.exec ⟨st, .int op2 :: .int op1 :: rest, env, acts⟩ =
        .ok ⟨st, .int (op1.tdiv op2) :: rest, env, acts⟩) ∧
    (op1 = i64Min → op2 = -1 →
      ArithInstruction.div.exec ⟨st, .int op2 :: .int op1 :: rest, env, acts⟩ =
        .error (.panic "attempt to divide with overflow")) := by
  refine ⟨fun h0 => ?_, fun h0 hov => ?_, fun h1 h2 => ?_⟩
  · simp [ArithInstruction.exec, Machine.popInt, Machine.popValue, h0]
  · simp [ArithInstruction.exec, Machine.popInt, Machine.popValue, h0, hov,
      Machine.pushInt, Machine.pushValue]
  · subst h1; subst h2
    simp [ArithInstruction.exec, Machine.popInt, Machine.popValue]

theorem c5_division_witness :
    ((0 : Int) = 0 →
      ArithInstruction.div.exec ⟨[], [.int 0, .int 7], [[]], []⟩ =
        .error (.runtime "Division by zero")) ∧
    ((0 : Int) ≠ 0 → ¬((7 : Int) = i64Min ∧ (0 : Int) = -1) →
      ArithInstruction.div.exec ⟨[], [.int 0, .int 7], [[]], []⟩ =
        .ok ⟨[], [.int ((7 : Int).tdiv 0)], [[]], []⟩) ∧
    ((7 : Int) = i64Min → (0 : Int) = -1 →
      ArithInstruction.div.exec ⟨[], [.int 0, .int 7], [[]], []⟩ =
        .error (.panic "attempt to divide with overflow")) :=
  c5_division 7 0 [] [[]] [] []

/-- C6: the spec says machine arithmetic must not crash the process and the
reference wraps on overflow.  `Add`, `Sub`, `Mul` do wrap into the
two's-complement 64-bit range (first three conjuncts, plus the range and
congruence facts about `wrap64`), but `Div` does *not*: on
`i64::MIN / -1` — precisely the case the claim calls out — Rust's
always-on division-overflow check panics and aborts the process instead of
wrapping (last conjunct). -/
theorem c6_arith_wrapping :
    (∀ (op1 op2 : Int) (st env : List Env) (acts : List (List Instruction))
        (rest : List Value),
      ArithInstruction.add.exec ⟨st, .int op2 :: .int op1 :: rest, env, acts⟩ =
        .ok ⟨st, .int (wrap64 (op1 + op2)) :: rest, env, acts⟩ ∧
      ArithInstruction.sub.exec ⟨st, .int op2 :: .int op1 :: rest, env, acts⟩ =
        .ok ⟨st, .int (wrap64 (op1 - op2)) :: rest, env, acts⟩ ∧
      ArithInstruction.mul.exec ⟨st, .int op2 :: .int op1 :: rest, env, acts⟩ =
        .ok ⟨st, .int (wrap64 (op1 * op2)) :: rest, env, acts⟩) ∧
    (∀ x : Int, i64Min ≤ wrap64 x ∧ wrap64 x < 2 ^ 63 ∧
      (2 : Int) ^ 64 ∣ x - wrap64 x) ∧
    ArithInstruction.div.exec ⟨[], [.int (-1), .int i64Min], [], [[]]⟩ =
      .error (.panic "attempt to divide with overflow") := by
  refine ⟨fun op1 op2 st env acts rest => ⟨rfl, rfl, rfl⟩,
    fun x => ⟨(wrap64_mem_range x).1, (wrap64_mem_range x).2, wrap64_congruent x⟩,
    rfl⟩

/-- C7: the compiler emits the left operand before the right
(`compile(l); compile(r); op`), so at run time the right operand is on top
and is popped first; every arithmetic and comparison instruction therefore
computes `op1 OP op2` where `op1` is the value pushed first — observably
so for the non-commutative `Sub`, `Div`, `Lt`, `Gt`. -/
theorem c7_operand_order :
    (∀ (kind : BinOpKind) (lhs rhs : Ir),
      (Ir.binOp kind lhs rhs).compile =
        lhs.compile ++ rhs.compile ++ [kind.compileInstr]) ∧
    (∀ (op1 op2 : Int) (st env : List Env) (acts : List (List Instruction))
        (rest : List Value),
      ArithInstruction.add.exec ⟨st, .int op2 :: .int op1 :: rest, env, acts⟩ =
        .ok ⟨st, .int (wrap64 (op1 + op2)) :: rest, env, acts⟩ ∧
      ArithInstruction.sub.exec ⟨st, .int op2 :: .int op1 :: rest, env, acts⟩ =
        .ok ⟨st, .int (wrap64 (op1 - op2)) :: rest, env, acts⟩ ∧
      ArithInstruction.mul.exec ⟨st, .int op2 :: .int op1 :: rest, env, acts⟩ =
        .ok ⟨st, .int (wrap64 (op1 * op2)) :: rest, env, acts⟩ ∧
      (op2 ≠ 0 → ¬(op1 = i64Min ∧ op2 = -1) →
        ArithInstruction.div.exec ⟨st, .int op2 :: .int op1 :: rest, env, acts⟩ =
          .ok ⟨st, .int (op1.tdiv op2) :: rest, env, acts⟩) ∧
      CmpInstruction.lt.exec ⟨st, .int op2 :: .int op1 :: rest, env, acts⟩ =
        .ok ⟨st, .bool (decide (op1 < op2)) :: rest, env, acts⟩ ∧
      CmpInstruction.eq.exec ⟨st, .int op2 :: .int op1 :: rest, env, acts⟩ =
        .ok ⟨st, .bool (decide (op1 = op2)) :: rest, env, acts⟩ ∧
      CmpInstruction.gt.exec ⟨st, .int op2 :: .int op1 :: rest, env, acts⟩ =
        .ok ⟨st, .bool (decide (op1 > op2)) :: rest, env, acts⟩) := by
  refine ⟨fun kind lhs rhs => rfl,
    fun op1 op2 st env acts rest => ⟨rfl, rfl, rfl, fun h0 hov => ?_, rfl, rfl, rfl⟩⟩
  simp [ArithInstruction.exec, Machine.popInt, Machine.popValue, h0, hov,
    Machine.pushInt, Machine.pushValue]

theorem c7_operand_order_witness :
    ArithInstruction.div.exec ⟨[], [.int 2, .int 7], [[]], []⟩ =
      .ok ⟨[], [.int ((7 : Int).tdiv 2)], [[]], []⟩ :=
  ((c7_operand_order.2 7 2 [] [[]] [] []).2.2.2.1 (by decide) (by decide))

/-- C8, counterexample: on the machine freshly created for the *empty*
program the activation stack holds one (empty) activation, yet
`fetch_instruction` returns no instruction — so "fetching returns no
instruction if and only if there are no activations left" fails in the
left-to-right direction. -/
theorem c8_counterexample :
    ((Machine.new []).fetchInstruction).1 = none ∧
    (Machine.new []).activations ≠ [] :=
  ⟨rfl, by simp [Machine.new]⟩

/-- C8, amended: fetch pops the top activation; if it carries at least one
instruction, fetch returns its head and pushes the non-empty tail back.
Fetch returns no instruction iff the activation stack is empty *or its top
activation is the empty frame* (the latter never arises from compiled
code, whose frames are all non-empty, but is reachable at the raw machine
interface). -/
theorem c8_fetch_characterisation (m : Machine) :
    ((m.fetchInstruction).1 = none ↔
      m.activations = [] ∨ ∃ rest, m.activations = [] :: rest) ∧
    (∀ inst tail rest, m.activations = (inst :: tail) :: rest →
      m.fetchInstruction =
        (some inst,
          { m with activations := if tail.isEmpty then rest else tail :: rest })) := by
  constructor
  · match hm : m.activations with
    | [] => simp [Machine.fetchInstruction, hm]
    | [] :: rest => simp [Machine.fetchInstruction, hm]
    | (inst :: tail) :: rest => simp [Machine.fetchInstruction, hm]
  · intro inst tail rest hm
    simp [Machine.fetchInstruction, hm]

theorem c8_fetch_characterisation_witness :
    (Machine.new [.pushInt 1, .pushInt 2]).fetchInstruction =
      (some (.pushInt 1),
        { Machine.new [.pushInt 1, .pushInt 2] with
            activations :=
              if ([Instruction.pushInt 2]).isEmpty then []
              else [Instruction.pushInt 2] :: [] }) :=
  (c8_fetch_characterisation (Machine.new [.pushInt 1, .pushInt 2])).2
    (.pushInt 1) [.pushInt 2] [] rfl

/-- C3, counterexample: `exec` checks the *value* stack on termination but
never the environment stack.  A hand-written frame whose closure body lacks
the trailing `PopEnv` returns successfully (`Int 7`) while the environment
stack still holds two environments, not just the initial one. -/
theorem c3_counterexample :
    (Machine.new unbalancedProg).exec 100 = some (.ok (.int 7)) ∧
    (match execLoop (some 92) 100 (0, Machine.new unbalancedProg) with
      | some (.ok m) => m.environments.length
      | _ => 0) = 2 :=
  ⟨rfl, rfl⟩

/-- C3, amended: whenever `exec` returns successfully the value stack at
loop exit held exactly one value, the result (this much the final
`pop_value` + emptiness check enforces); the environment stack is *not*
checked and can differ from the single initial environment (see the
counterexample). -/
theorem c3_success_one_value (gcEvery : Option Nat) (fuel : Nat)
    (m₀ mf : Machine) (v : Value)
    (h : execLoop gcEvery fuel (0, m₀) = some (.ok mf)) :
    m₀.execWith gcEvery fuel = some (.ok v) ↔ mf.values = [v] := by
  simp only [Machine.execWith, h, Option.map_some]
  match hv : mf.values with
  | [] =>
    simp [finishExec, Machine.popValue, hv]
  | [w] =>
    simp [finishExec, Machine.popValue, hv]
  | w :: x :: rest =>
    simp [finishExec, Machine.popValue, hv]

theorem c3_success_one_value_witness :
    ((Machine.new [.pushInt 92]).execWith (some 92) 10 =
        some (.ok (.int 92)) ↔
      ([Value.int 92] : List Value) = [.int 92]) :=
  c3_success_one_value (some 92) 10 (Machine.new [.pushInt 92])
    ⟨[], [.int 92], [[]], []⟩ (.int 92) rfl

/-- C2, counterexample: garbage collection is *not* observationally a
no-op under `Value` equality.  `closureResultProg` returns a closure; the
never-collect run leaves its captured environment at heap index 1, while
collecting after every instruction compacts it to index 0, so the two
`exec` results are different values. -/
theorem c2_counterexample :
    (Machine.new closureResultProg).execWith none 100 =
      some (.ok (.closure ⟨3, [.var 3, .popEnv], 1⟩)) ∧
    (Machine.new closureResultProg).execWith (some 1) 100 =
      some (.ok (.closure ⟨3, [.var 3, .popEnv], 0⟩)) ∧
    (Machine.new closureResultProg).execWith none 100 ≠
      (Machine.new closureResultProg).execWith (some 1) 100 := by
  have h1 : (Machine.new closureResultProg).execWith none 100 =
      some (.ok (.closure ⟨3, [.var 3, .popEnv], 1⟩)) := rfl
  have h2 : (Machine.new closureResultProg).execWith (some 1) 100 =
      some (.ok (.closure ⟨3, [.var 3, .popEnv], 0⟩)) := rfl
  refine ⟨h1, h2, fun hc => ?_⟩
  rw [h1, h2] at hc
  simp at hc

/-- C9: desugaring `let fun f(x:t1):t2 is e1 in e2` produces exactly the
immediate application
`Apply { fun: Fun { 1, name(f), desugar(e2) }, arg: Fun { name(f), name(x), desugar(e1) } }`:
the outer self-name is the reserved `ANON_SELF = 1`, the outer argument
name is the very name the renamer assigned to `f` (the third `lookup` in
the source finds the entry `desugar_fun` interned and leaves the renamer
unchanged), and the type annotations `t1`, `t2` are discarded. -/
theorem c9_letfun_desugar (f : SFun) (body : Expr) (r : Renamer) :
    (Expr.letFun f body).desugarR r =
      (.apply
        (.funE 1 (desugarFun f r).1.funName
          (body.desugarR (desugarFun f r).2).1)
        (.funE (desugarFun f r).1.funName (desugarFun f r).1.argName
          (desugarFun f r).1.body),
       (body.desugarR (desugarFun f r).2).2) := by
  obtain ⟨fname, aname, t1, t2, fbody⟩ := f
  obtain ⟨id, hfind, hid⟩ := r.lookup_self fname
  have hfun2 : (desugarFun (.mk fname aname t1 t2 fbody) r).2 =
      (fbody.desugarR ((r.lookup fname).2.lookup aname).2).2 := rfl
  have hfind2 :
      (body.desugarR (desugarFun (.mk fname aname t1 t2 fbody) r).2).2.find
        fname = some id := by
    apply Renamer.find_mono
      (body.desugarR_names_extend (desugarFun (.mk fname aname t1 t2 fbody) r).2)
    rw [hfun2]
    exact Renamer.find_mono
      (fbody.desugarR_names_extend ((r.lookup fname).2.lookup aname).2)
      (Renamer.find_mono ((r.lookup fname).2.lookup_names_extend aname) hfind)
  have hlast := Renamer.lookup_of_find hfind2
  have hname : (desugarFun (.mk fname aname t1 t2 fbody) r).1.funName =
      id * 2 := hid
  simp only [Expr.desugarR, SFun.funName, hlast, hname, IrFun.intoIr]

/-! ### Well-formedness lemmas for the environment-stack invariant (C10) -/

theorem framePops_nil : framePops [] = 0 := rfl

theorem framePops_cons (i : Instruction) (f : List Instruction) :
    framePops (i :: f) = (if isPopEnvInstr i then 1 else 0) + framePops f := by
  simp only [framePops, List.filter]
  cases h : isPopEnvInstr i <;> simp [h, Nat.add_comm]

theorem framePops_append (a b : List Instruction) :
    framePops (a ++ b) = framePops a + framePops b := by
  simp [framePops, List.filter_append]

theorem wfFrame_cons (i : Instruction) (f : List Instruction) :
    wfFrame (i :: f) = (wfInstr i && wfFrame f) := by
  simp [wfFrame]

theorem wfFrame_append (a b : List Instruction) :
    wfFrame (a ++ b) = (wfFrame a && wfFrame b) := by
  induction a with
  | nil => simp [wfFrame]
  | cons i rest ih => simp [wfFrame_cons, ih, Bool.and_assoc]

theorem actsPops_cons (a : List Instruction) (acts : List (List Instruction)) :
    actsPops (a :: acts) = framePops a + actsPops acts := by
  simp [actsPops]

/-- The frames the compiler emits owe no environment pop at top level and
are well-formed instruction by instruction. -/
theorem compile_wf (ir : Ir) :
    wfFrame ir.compile = true ∧ framePops ir.compile = 0 := by
  induction ir with
  | var n => exact ⟨rfl, rfl⟩
  | intLiteral i => exact ⟨rfl, rfl⟩
  | boolLiteral b => exact ⟨rfl, rfl⟩
  | binOp kind lhs rhs ihl ihr =>
    constructor
    · simp only [Ir.compile, wfFrame_append, ihl.1, ihr.1, Bool.true_and]
      cases kind <;> simp [wfFrame_cons, wfFrame, wfInstr, BinOpKind.compileInstr]
    · simp only [Ir.compile, framePops_append, ihl.2, ihr.2]
      cases kind <;>
        simp [framePops_cons, framePops_nil, isPopEnvInstr, BinOpKind.compileInstr]
  | ifE cond tru fls ihc iht ihf =>
    constructor
    · simp [Ir.compile, wfFrame_append, ihc.1, wfFrame_cons, wfFrame, wfInstr,
        iht.1, ihf.1, iht.2, ihf.2]
    · simp [Ir.compile, framePops_append, ihc.2, framePops_cons, framePops_nil,
        isPopEnvInstr]
  | funE name arg body ih =>
    constructor
    · simp [Ir.compile, wfFrame_cons, wfFrame, wfInstr, wfFrame_append, ih.1,
        framePops_append, ih.2, framePops_cons, framePops_nil, isPopEnvInstr]
    · simp [Ir.compile, framePops_cons, framePops_nil, isPopEnvInstr]
  | apply f arg ihf iha =>
    constructor
    · simp [Ir.compile, wfFrame_append, ihf.1, iha.1, wfFrame_cons, wfFrame,
        wfInstr]
    · simp [Ir.compile, framePops_append, ihf.2, iha.2, framePops_cons,
        framePops_nil, isPopEnvInstr]

theorem envInsert_wf {e : Env} {v : Value} (he : wfEnv e = true)
    (hv : wfValue v = true) (k : Name) : wfEnv (envInsert k v e) = true := by
  induction e with
  | nil => simp [envInsert, wfEnv, hv]
  | cons p rest ih =>
    simp only [wfEnv, List.all_cons, Bool.and_eq_true] at he
    by_cases hk : p.1 = k
    · simp only [envInsert]
      rw [if_pos hk]
      simp [wfEnv, hv, he.2]
    · obtain ⟨k', v'⟩ := p
      simp only at hk
      simp only [envInsert, if_neg hk]
      simp only [wfEnv, List.all_cons, Bool.and_eq_true]
      exact ⟨he.1, ih he.2⟩

theorem envLookup_wf {e : Env} {n : Name} {v : Value} (he : wfEnv e = true)
    (h : envLookup n e = some v) : wfValue v = true := by
  induction e with
  | nil => simp [envLookup] at h
  | cons p rest ih =>
    simp only [wfEnv, List.all_cons, Bool.and_eq_true] at he
    simp only [envLookup] at h
    split at h
    · cases h; exact he.1
    · exact ih he.2 h

theorem popValue_ok {m : Machine} {v : Value} {m' : Machine}
    (h : m.popValue = .ok (v, m')) :
    m.values = v :: m'.values ∧ m'.storage = m.storage ∧
    m'.environments = m.environments ∧ m'.activations = m.activations := by
  unfold Machine.popValue at h
  rcases hv : m.values with _ | ⟨w, rest⟩ <;> rw [hv] at h
  · cases h
  · cases h; exact ⟨rfl, rfl, rfl, rfl⟩

theorem popInt_ok {m : Machine} {i : Int} {m' : Machine}
    (h : m.popInt = .ok (i, m')) :
    m.values = .int i :: m'.values ∧ m'.storage = m.storage ∧
    m'.environments = m.environments ∧ m'.activations = m.activations := by
  unfold Machine.popInt at h
  rcases hp : m.popValue with ⟨e⟩ | ⟨⟨v, m₁⟩⟩ <;> rw [hp] at h
  · cases h
  · cases v <;> simp at h
    obtain ⟨h1, h2⟩ := h
    subst h1; subst h2
    exact popValue_ok hp

theorem popBool_ok {m : Machine} {b : Bool} {m' : Machine}
    (h : m.popBool = .ok (b, m')) :
    m.values = .bool b :: m'.values ∧ m'.storage = m.storage ∧
    m'.environments = m.environments ∧ m'.activations = m.activations := by
  unfold Machine.popBool at h
  rcases hp : m.popValue with ⟨e⟩ | ⟨⟨v, m₁⟩⟩ <;> rw [hp] at h
  · cases h
  · cases v <;> simp at h
    obtain ⟨h1, h2⟩ := h
    subst h1; subst h2
    exact popValue_ok hp

theorem popClosure_ok {m : Machine} {c : ClosureV} {m' : Machine}
    (h : m.popClosure = .ok (c, m')) :
    m.values = .closure c :: m'.values ∧ m'.storage = m.storage ∧
    m'.environments = m.environments ∧ m'.activations = m.activations := by
  unfold Machine.popClosure at h
  rcases hp : m.popValue with ⟨e⟩ | ⟨⟨v, m₁⟩⟩ <;> rw [hp] at h
  · cases h
  · cases v <;> simp at h
    obtain ⟨h1, h2⟩ := h
    subst h1; subst h2
    exact popValue_ok hp

theorem currentEnv_ok {m : Machine} {env : Env}
    (h : m.currentEnv = .ok env) : ∃ tail, m.environments = env :: tail := by
  unfold Machine.currentEnv at h
  rcases he : m.environments with _ | ⟨e, tail⟩ <;> rw [he] at h
  · cases h
  · cases h; exact ⟨tail, rfl⟩

theorem lookup_ok {m : Machine} {n : Name} {v : Value}
    (h : m.lookup n = .ok v) :
    ∃ env tail, m.environments = env :: tail ∧ envLookup n env = some v := by
  unfold Machine.lookup at h
  split at h
  · cases h
  next env hc =>
    obtain ⟨tail, ht⟩ := currentEnv_ok hc
    split at h
    next w hl => cases h; exact ⟨env, tail, ht, hl⟩
    next => cases h


theorem getD_mem_of_lt {α : Type} {l : List α} {i : Nat} {d : α}
    (h : i < l.length) : l.getD i d ∈ l := by
  induction l generalizing i with
  | nil => simp at h
  | cons x rest ih =>
    cases i with
    | zero => simp [List.getD]
    | succ j =>
      have : j < rest.length := by simpa using h
      simpa [List.getD] using Or.inr (ih this)

/-- One successfully executed instruction preserves the C10 invariant.
The balance hypothesis accounts for the fetch step that has already
removed the instruction from the top activation. -/
theorem minv_exec {inst : Instruction} {m m' : Machine}
    (hwfI : wfInstr inst = true)
    (hbal : m.environments.length =
      1 + (if isPopEnvInstr inst then 1 else 0) + actsPops m.activations)
    (hacts : ∀ a ∈ m.activations, wfFrame a = true)
    (hvals : ∀ v ∈ m.values, wfValue v = true)
    (henvs : ∀ e ∈ m.environments, wfEnv e = true)
    (hstor : ∀ e ∈ m.storage, wfEnv e = true)
    (h : inst.exec m = .ok m') : MInv m' := by
  cases inst with
  | arith op =>
    simp only [Instruction.exec] at h
    unfold ArithInstruction.exec at h
    split at h
    · cases h
    next op2 m₁ hp1 =>
    split at h
    · cases h
    next op1 m₂ hp2 =>
    obtain ⟨hv1, hs1, he1, ha1⟩ := popInt_ok hp1
    obtain ⟨hv2, hs2, he2, ha2⟩ := popInt_ok hp2
    have push : ∀ z : Int, MInv (m₂.pushInt z) := by
      intro z
      refine ⟨?_, ?_, ?_, ?_, ?_⟩
      · show m₂.environments.length = 1 + actsPops m₂.activations
        rw [he2, he1, ha2, ha1]
        simpa [isPopEnvInstr] using hbal
      · intro a ha
        rw [show (m₂.pushInt z).activations = m₂.activations from rfl, ha2,
          ha1] at ha
        exact hacts a ha
      · intro v hv
        rcases List.mem_cons.1 hv with hv | hv
        · subst hv; rfl
        · exact hvals v (by
            rw [hv1, hv2]
            exact List.mem_cons_of_mem _ (List.mem_cons_of_mem _ hv))
      · intro e he
        rw [show (m₂.pushInt z).environments = m₂.environments from rfl, he2,
          he1] at he
        exact henvs e he
      · intro e he
        rw [show (m₂.pushInt z).storage = m₂.storage from rfl, hs2, hs1] at he
        exact hstor e he
    split at h
    · cases h; exact push _
    · cases h; exact push _
    · cases h; exact push _
    · split at h
      · cases h
      · split at h
        · cases h
        · cases h; exact push _
  | cmp op =>
    simp only [Instruction.exec] at h
    unfold CmpInstruction.exec at h
    split at h
    · cases h
    next op2 m₁ hp1 =>
    split at h
    · cases h
    next op1 m₂ hp2 =>
    obtain ⟨hv1, hs1, he1, ha1⟩ := popInt_ok hp1
    obtain ⟨hv2, hs2, he2, ha2⟩ := popInt_ok hp2
    have push : ∀ z : Bool, MInv (m₂.pushBool z) := by
      intro z
      refine ⟨?_, ?_, ?_, ?_, ?_⟩
      · show m₂.environments.length = 1 + actsPops m₂.activations
        rw [he2, he1, ha2, ha1]
        simpa [isPopEnvInstr] using hbal
      · intro a ha
        rw [show (m₂.pushBool z).activations = m₂.activations from rfl, ha2,
          ha1] at ha
        exact hacts a ha
      · intro v hv
        rcases List.mem_cons.1 hv with hv | hv
        · subst hv; rfl
        · exact hvals v (by
            rw [hv1, hv2]
            exact List.mem_cons_of_mem _ (List.mem_cons_of_mem _ hv))
      · intro e he
        rw [show (m₂.pushBool z).environments = m₂.environments from rfl, he2,
          he1] at he
        exact henvs e he
      · intro e he
        rw [show (m₂.pushBool z).storage = m₂.storage from rfl, hs2, hs1] at he
        exact hstor e he
    split at h
    · cases h; exact push _
    · cases h; exact push _
    · cases h; exact push _
  | pushInt i =>
    simp only [Instruction.exec] at h
    cases h
    refine ⟨?_, hacts, ?_, henvs, hstor⟩
    · show m.environments.length = 1 + actsPops m.activations
      simpa [isPopEnvInstr] using hbal
    · intro v hv
      rcases List.mem_cons.1 hv with hv | hv
      · subst hv; rfl
      · exact hvals v hv
  | pushBool b =>
    simp only [Instruction.exec] at h
    cases h
    refine ⟨?_, hacts, ?_, henvs, hstor⟩
    · show m.environments.length = 1 + actsPops m.activations
      simpa [isPopEnvInstr] using hbal
    · intro v hv
      rcases List.mem_cons.1 hv with hv | hv
      · subst hv; rfl
      · exact hvals v hv
  | branch tru fls =>
    simp only [Instruction.exec] at h
    split at h
    · cases h
    next b m₁ hp =>
    obtain ⟨hv1, hs1, he1, ha1⟩ := popBool_ok hp
    cases h
    simp only [wfInstr, Bool.and_eq_true, decide_eq_true_eq] at hwfI
    refine ⟨?_, ?_, ?_, ?_, ?_⟩
    · show m₁.environments.length =
        1 + actsPops ((if b then tru else fls) :: m₁.activations)
      rw [actsPops_cons]
      have harm : framePops (if b then tru else fls) = 0 := by
        cases b
        · simpa using hwfI.1.1.2
        · simpa using hwfI.1.1.1
      rw [harm, he1, ha1]
      simpa [isPopEnvInstr] using hbal
    · intro a ha
      rcases List.mem_cons.1 ha with ha | ha
      · subst ha
        cases b
        · simpa using hwfI.2
        · simpa using hwfI.1.2
      · rw [ha1] at ha
        exact hacts a ha
    · intro v hv
      exact hvals v (by rw [hv1]; exact List.mem_cons_of_mem _ hv)
    · intro e he
      rw [show (m₁.switchFrame (if b then tru else fls)).environments =
          m₁.environments from rfl, he1] at he
      exact henvs e he
    · intro e he
      rw [show (m₁.switchFrame (if b then tru else fls)).storage =
          m₁.storage from rfl, hs1] at he
      exact hstor e he
  | var n =>
    simp only [Instruction.exec] at h
    split at h
    · cases h
    next v hl =>
    cases h
    obtain ⟨env, tail, henv, hfound⟩ := lookup_ok hl
    refine ⟨?_, hacts, ?_, henvs, hstor⟩
    · show m.environments.length = 1 + actsPops m.activations
      simpa [isPopEnvInstr] using hbal
    · intro w hw
      rcases List.mem_cons.1 hw with hw | hw
      · subst hw
        exact envLookup_wf
          (henvs env (by rw [henv]; exact List.mem_cons_self _ _)) hfound
      · exact hvals w hw
  | closure name arg frame =>
    simp only [Instruction.exec] at h
    split at h
    · cases h
    next env hc =>
    cases h
    obtain ⟨tail, henv⟩ := currentEnv_ok hc
    simp only [wfInstr, Bool.and_eq_true, decide_eq_true_eq] at hwfI
    have hval : wfValue (.closure ⟨arg, frame, m.storage.length⟩) = true := by
      simp [wfValue, hwfI.1, hwfI.2]
    refine ⟨?_, hacts, ?_, henvs, ?_⟩
    · show m.environments.length = 1 + actsPops m.activations
      simpa [isPopEnvInstr] using hbal
    · intro v hv
      rcases List.mem_cons.1 hv with hv | hv
      · subst hv; exact hval
      · exact hvals v hv
    · intro e he
      rcases List.mem_append.1 he with he | he
      · exact hstor e he
      · have he' : e = envInsert name
            (.closure ⟨arg, frame, m.storage.length⟩) env := by
          simpa using he
        subst he'
        exact envInsert_wf
          (henvs env (by rw [henv]; exact List.mem_cons_self _ _)) hval _
  | call =>
    simp only [Instruction.exec] at h
    split at h
    · cases h
    next argV m₁ hp1 =>
    split at h
    · cases h
    next c m₂ hp2 =>
    obtain ⟨hv1, hs1, he1, ha1⟩ := popValue_ok hp1
    obtain ⟨hv2, hs2, he2, ha2⟩ := popClosure_ok hp2
    split at h
    · next hlt =>
      cases h
      have hcwf : wfValue (.closure c) = true :=
        hvals _ (by
          rw [hv1, hv2]
          exact List.mem_cons_of_mem _ (List.mem_cons_self _ _))
      simp only [wfValue, Bool.and_eq_true, decide_eq_true_eq] at hcwf
      refine ⟨?_, ?_, ?_, ?_, ?_⟩
      · show m₂.environments.length + 1 =
          1 + actsPops (c.frame :: m₂.activations)
        rw [actsPops_cons, hcwf.1, he2, he1, ha2, ha1]
        have hb := hbal
        simp [isPopEnvInstr] at hb
        omega
      · intro a ha
        rcases List.mem_cons.1 ha with ha | ha
        · subst ha; exact hcwf.2
        · rw [ha2, ha1] at ha
          exact hacts a ha
      · intro v hv
        exact hvals v (by
          rw [hv1, hv2]
          exact List.mem_cons_of_mem _ (List.mem_cons_of_mem _ hv))
      · intro e he
        rcases List.mem_cons.1 he with he | he
        · subst he
          refine envInsert_wf ?_ ?_ _
          · refine hstor _ ?_
            rw [show m₂.storage.getD c.env [] = m.storage.getD c.env [] by
              rw [hs2, hs1]]
            exact getD_mem_of_lt (by rw [← hs1, ← hs2]; assumption)
          · exact hvals argV (by rw [hv1]; exact List.mem_cons_self _ _)
        · rw [he2, he1] at he
          exact henvs e he
      · intro e he
        have he' : e ∈ m₂.storage := he
        rw [hs2, hs1] at he'
        exact hstor e he'
    · cases h
  | popEnv =>
    simp only [Instruction.exec] at h
    unfold Machine.popEnv at h
    split at h
    · cases h
    next env rest henv =>
    cases h
    refine ⟨?_, hacts, hvals, ?_, hstor⟩
    · rw [henv] at hbal
      simp [isPopEnvInstr] at hbal
      show rest.length = 1 + actsPops m.activations
      omega
    · intro e hmem
      exact henvs e (by rw [henv]; exact List.mem_cons_of_mem _ hmem)

/-! ### The collector preserves the C10 invariant (it only renames heap
indices, which the well-formedness predicates never inspect). -/

theorem gcValue_wf (v : Value) (s : GcSt)
    (hold : ∀ e ∈ s.oldEnvs, wfEnv e = true)
    (hwave : ∀ e ∈ s.wave, wfEnv e = true) :
    wfValue (gcValue v s).1 = wfValue v ∧
    (∀ e ∈ (gcValue v s).2.oldEnvs, wfEnv e = true) ∧
    (∀ e ∈ (gcValue v s).2.wave, wfEnv e = true) := by
  cases v with
  | int i => exact ⟨rfl, hold, hwave⟩
  | bool b => exact ⟨rfl, hold, hwave⟩
  | closure c =>
    simp only [gcValue]
    cases hm : movedLookup c.env s.moved with
    | some j => exact ⟨rfl, hold, hwave⟩
    | none =>
      refine ⟨rfl, ?_, ?_⟩
      · intro e he
        rcases List.mem_or_eq_of_mem_set he with he | he
        · exact hold e he
        · subst he; rfl
      · intro e he
        rcases List.mem_append.1 he with he | he
        · exact hwave e he
        · have he' : e = s.oldEnvs.getD c.env [] := by simpa using he
          subst he'
          by_cases hlt : c.env < s.oldEnvs.length
          · exact hold _ (getD_mem_of_lt hlt)
          · rw [List.getD_eq_default _ _ (by omega)]
            rfl

theorem gcValues_wf (vs : List Value) (s : GcSt)
    (hvs : ∀ v ∈ vs, wfValue v = true)
    (hold : ∀ e ∈ s.oldEnvs, wfEnv e = true)
    (hwave : ∀ e ∈ s.wave, wfEnv e = true) :
    (∀ v ∈ (gcValues vs s).1, wfValue v = true) ∧
    (∀ e ∈ (gcValues vs s).2.oldEnvs, wfEnv e = true) ∧
    (∀ e ∈ (gcValues vs s).2.wave, wfEnv e = true) := by
  induction vs generalizing s with
  | nil => exact ⟨by simp [gcValues], hold, hwave⟩
  | cons v rest ih =>
    obtain ⟨h1, h2, h3⟩ := gcValue_wf v s hold hwave
    obtain ⟨h4, h5, h6⟩ := ih ((gcValue v s).2)
      (fun w hw => hvs w (List.mem_cons_of_mem _ hw)) h2 h3
    refine ⟨?_, h5, h6⟩
    intro w hw
    simp only [gcValues] at hw
    rcases List.mem_cons.1 hw with hw | hw
    · subst hw
      rw [h1]
      exact hvs v (List.mem_cons_self _ _)
    · exact h4 w hw

theorem gcEnv_wf (env : Env) (s : GcSt)
    (henv : wfEnv env = true)
    (hold : ∀ e ∈ s.oldEnvs, wfEnv e = true)
    (hwave : ∀ e ∈ s.wave, wfEnv e = true) :
    wfEnv (gcEnv env s).1 = true ∧
    (∀ e ∈ (gcEnv env s).2.oldEnvs, wfEnv e = true) ∧
    (∀ e ∈ (gcEnv env s).2.wave, wfEnv e = true) := by
  induction env generalizing s with
  | nil => exact ⟨rfl, hold, hwave⟩
  | cons p rest ih =>
    simp only [wfEnv, List.all_cons, Bool.and_eq_true] at henv
    obtain ⟨h1, h2, h3⟩ := gcValue_wf p.2 s hold hwave
    obtain ⟨h4, h5, h6⟩ := ih ((gcValue p.2 s).2) henv.2 h2 h3
    refine ⟨?_, h5, h6⟩
    simp only [gcEnv, wfEnv, List.all_cons, Bool.and_eq_true]
    exact ⟨by rw [h1]; exact henv.1, h4⟩

theorem gcEnvs_wf (envs : List Env) (s : GcSt)
    (henvs : ∀ e ∈ envs, wfEnv e = true)
    (hold : ∀ e ∈ s.oldEnvs, wfEnv e = true)
    (hwave : ∀ e ∈ s.wave, wfEnv e = true) :
    (∀ e ∈ (gcEnvs envs s).1, wfEnv e = true) ∧
    (∀ e ∈ (gcEnvs envs s).2.oldEnvs, wfEnv e = true) ∧
    (∀ e ∈ (gcEnvs envs s).2.wave, wfEnv e = true) := by
  induction envs generalizing s with
  | nil => exact ⟨by simp [gcEnvs], hold, hwave⟩
  | cons env rest ih =>
    obtain ⟨h1, h2, h3⟩ := gcEnv_wf env s
      (henvs env (List.mem_cons_self _ _)) hold hwave
    obtain ⟨h4, h5, h6⟩ := ih ((gcEnv env s).2)
      (fun e he => henvs e (List.mem_cons_of_mem _ he)) h2 h3
    refine ⟨?_, h5, h6⟩
    intro e he
    simp only [gcEnvs] at he
    rcases List.mem_cons.1 he with he | he
    · subst he; exact h1
    · exact h4 e he

theorem gcEnvs_length (envs : List Env) (s : GcSt) :
    (gcEnvs envs s).1.length = envs.length := by
  induction envs generalizing s with
  | nil => rfl
  | cons env rest ih => simp [gcEnvs, ih]

theorem gcLoop_wf (fuel : Nat) :
    ∀ (ns : List Env) (done : Nat) (mv : List (Nat × Nat)) (olds : List Env),
    (∀ e ∈ ns, wfEnv e = true) → (∀ e ∈ olds, wfEnv e = true) →
    ∀ e ∈ gcLoop fuel ns done mv olds, wfEnv e = true := by
  induction fuel with
  | zero => intro ns done mv olds hns holds e he; exact hns e he
  | succ fuel ih =>
    intro ns done mv olds hns holds e he
    simp only [gcLoop] at he
    obtain ⟨h1, h2, h3⟩ := gcEnvs_wf (ns.drop done)
      ⟨mv, olds, [], ns.length⟩
      (fun w hw => hns w (List.mem_of_mem_drop hw)) holds (by simp)
    split at he
    · rcases List.mem_append.1 he with he | he
      · exact hns e (List.mem_of_mem_take he)
      · exact h1 e he
    · refine ih _ _ _ _ ?_ h2 e he
      intro w hw
      rcases List.mem_append.1 hw with hw | hw
      · rcases List.mem_append.1 hw with hw | hw
        · exact hns w (List.mem_of_mem_take hw)
        · exact h1 w hw
      · exact h3 w hw

/-- Garbage collection preserves the C10 invariant. -/
theorem minv_gc {m : Machine} (hInv : MInv m) : MInv m.gc := by
  obtain ⟨hbal, hacts, hvals, henvs, hstor⟩ := hInv
  have hs0old : ∀ e ∈ (⟨[], m.storage, [], 0⟩ : GcSt).oldEnvs, wfEnv e = true :=
    hstor
  have hs0wave : ∀ e ∈ (⟨[], m.storage, [], 0⟩ : GcSt).wave, wfEnv e = true := by
    simp
  obtain ⟨hv1, hv2, hv3⟩ := gcValues_wf m.values.reverse
    ⟨[], m.storage, [], 0⟩
    (fun v hv => hvals v (List.mem_reverse.1 hv)) hs0old hs0wave
  obtain ⟨he1, he2, he3⟩ := gcEnvs_wf m.environments.reverse
    (gcValues m.values.reverse ⟨[], m.storage, [], 0⟩).2
    (fun e he => henvs e (List.mem_reverse.1 he)) hv2 hv3
  refine ⟨?_, hacts, ?_, ?_, ?_⟩
  · show ((gcEnvs m.environments.reverse
        (gcValues m.values.reverse ⟨[], m.storage, [], 0⟩).2).1).reverse.length =
      1 + actsPops m.activations
    rw [List.length_reverse, gcEnvs_length, List.length_reverse]
    exact hbal
  · intro v hv
    exact hv1 v (List.mem_reverse.1 hv)
  · intro e he
    exact he1 e (List.mem_reverse.1 he)
  · intro e he
    exact gcLoop_wf _ _ _ _ _ he3 he2 e he

theorem fetch_some {m : Machine} {inst : Instruction} {m' : Machine}
    (h : m.fetchInstruction = (some inst, m')) :
    ∃ tail rest, m.activations = (inst :: tail) :: rest ∧
      m' = { m with activations := if tail.isEmpty then rest else tail :: rest } := by
  unfold Machine.fetchInstruction at h
  rcases hacs : m.activations with _ | ⟨act, rest⟩ <;> rw [hacs] at h
  · cases h
  rcases hact : act with _ | ⟨i, tail⟩ <;> rw [hact] at h
  · cases h
  · cases h
    exact ⟨tail, rest, by simp [hacs, hact], rfl⟩

/-- One loop iteration preserves the C10 invariant. -/
theorem minv_step {gcEvery : Option Nat} {s s' : Nat × Machine}
    (hInv : MInv s.2) (h : loopStep gcEvery s = .next s') : MInv s'.2 := by
  obtain ⟨hbal, hacts, hvals, henvs, hstor⟩ := hInv
  unfold loopStep at h
  split at h
  · cases h
  next inst m₁ hfeq =>
  obtain ⟨tail, rest, hacs, hm₁⟩ := fetch_some hfeq
  split at h
  · cases h
  next m₂ hex =>
  have hwfact : wfFrame ((inst :: tail) : List Instruction) = true :=
    hacts _ (by rw [hacs]; exact List.mem_cons_self _ _)
  rw [wfFrame_cons, Bool.and_eq_true] at hwfact
  have hbal' : m₁.environments.length =
      1 + (if isPopEnvInstr inst then 1 else 0) + actsPops m₁.activations := by
    have hsum : actsPops (if tail.isEmpty then rest else tail :: rest) =
        framePops tail + actsPops rest := by
      cases tail with
      | nil => simp [actsPops_cons, framePops_nil]
      | cons i t => simp [actsPops_cons]
    rw [hm₁]
    show s.2.environments.length =
      1 + (if isPopEnvInstr inst then 1 else 0) +
        actsPops (if tail.isEmpty then rest else tail :: rest)
    rw [hsum, hbal, hacs, actsPops_cons, framePops_cons]
    omega
  have hacts' : ∀ a ∈ m₁.activations, wfFrame a = true := by
    have hrest : ∀ b ∈ rest, wfFrame b = true := fun b hb =>
      hacts b (by rw [hacs]; exact List.mem_cons_of_mem _ hb)
    rw [hm₁]
    show ∀ a ∈ (if tail.isEmpty then rest else tail :: rest), wfFrame a = true
    intro a ha
    by_cases htail : tail.isEmpty
    · rw [if_pos htail] at ha
      exact hrest a ha
    · rw [if_neg htail] at ha
      rcases List.mem_cons.1 ha with ha | ha
      · subst ha; exact hwfact.2
      · exact hrest a ha
  have hvals₁ : ∀ v ∈ m₁.values, wfValue v = true := by
    rw [hm₁]; exact hvals
  have henvs₁ : ∀ e ∈ m₁.environments, wfEnv e = true := by
    rw [hm₁]; exact henvs
  have hstor₁ : ∀ e ∈ m₁.storage, wfEnv e = true := by
    rw [hm₁]; exact hstor
  have hInv₂ : MInv m₂ :=
    minv_exec hwfact.1 hbal' hacts' hvals₁ henvs₁ hstor₁ hex
  split at h
  · cases h; exact hInv₂
  · cases h
    show MInv (if _ % _ = 0 then m₂.gc else m₂)
    split
    · exact minv_gc hInv₂
    · exact hInv₂

/-- All states the loop reaches from an invariant-satisfying start satisfy
the invariant. -/
theorem minv_reaches {gcEvery : Option Nat} {s s' : Nat × Machine}
    (h : Reaches gcEvery s s') (hInv : MInv s.2) : MInv s'.2 := by
  induction h with
  | refl => exact hInv
  | step _ hstep ih => exact minv_step ih hstep

/-- C10: frames produced by the compiler keep the environment stack
non-empty at every step of execution (whatever the collection interval),
so the unchecked `environments.last().unwrap()` behind `Var` and `Closure`
never fails; at the raw machine interface this is not guaranteed — the
hand-written frame `[PopEnv, Var 0]` pops the initial environment and then
panics the process on the unwrap instead of reporting a fatal error. -/
theorem c10_env_stack_safety :
    (∀ (ir : Ir) (gcEvery : Option Nat) (n : Nat) (st : Machine),
        Reaches gcEvery (0, Machine.new ir.compile) (n, st) →
        st.environments ≠ []) ∧
    (Machine.new [.popEnv, .var 0]).exec 10 =
      some (.error (.panic "called Option::unwrap() on a None value")) := by
  constructor
  · intro ir gcEvery n st hreach
    have hInv0 : MInv (Machine.new ir.compile) := by
      refine ⟨?_, ?_, ?_, ?_, ?_⟩
      · show 1 = 1 + actsPops [ir.compile]
        rw [actsPops_cons, (compile_wf ir).2]
        rfl
      · intro a ha
        have ha' : a = ir.compile := by simpa [Machine.new] using ha
        subst ha'
        exact (compile_wf ir).1
      · intro v hv
        simp [Machine.new] at hv
      · intro e he
        have he' : e = [] := by simpa [Machine.new] using he
        subst he'
        rfl
      · intro e he
        simp [Machine.new] at he
    have hInv : MInv st := minv_reaches hreach hInv0
    have := hInv.balance
    intro hc
    rw [hc] at this
    simp only [List.length_nil] at this
    omega
  · rfl

theorem c10_env_stack_safety_witness :
    (Machine.new (Ir.intLiteral 5).compile).environments ≠ [] ∧
    (Machine.new [.popEnv, .var 0]).exec 10 =
      some (.error (.panic "called Option::unwrap() on a None value")) :=
  ⟨c10_env_stack_safety.1 (Ir.intLiteral 5) (some 92) 0
      (Machine.new (Ir.intLiteral 5).compile) (Reaches.refl _),
    c10_env_stack_safety.2⟩

/-! ### Renaming-relation toolbox (C2) -/

theorem valRel_mono {σ σ' : Nat → Option Nat}
    (hmono : ∀ i j, σ i = some j → σ' i = some j) {v v' : Value}
    (h : valRel σ v v') : valRel σ' v v' := by
  cases v with
  | int a => cases v' <;> simp_all [valRel]
  | bool b => cases v' <;> simp_all [valRel]
  | closure c =>
    cases v' with
    | int a => simp_all [valRel]
    | bool b => simp_all [valRel]
    | closure d =>
      obtain ⟨h1, h2, h3⟩ := h
      exact ⟨h1, h2, hmono _ _ h3⟩

theorem envRel_mono {σ σ' : Nat → Option Nat}
    (hmono : ∀ i j, σ i = some j → σ' i = some j) {e e' : Env}
    (h : envRel σ e e') : envRel σ' e e' :=
  List.Forall₂.imp (fun _ _ hp => ⟨hp.1, valRel_mono hmono hp.2⟩) h

theorem valRel_comp {σ τ : Nat → Option Nat} {a b c : Value}
    (h1 : valRel σ a b) (h2 : valRel τ b c) :
    valRel (fun i => (σ i).bind τ) a c := by
  cases a with
  | int x => cases b <;> cases c <;> simp_all [valRel]
  | bool x => cases b <;> cases c <;> simp_all [valRel]
  | closure x =>
    cases b with
    | int y => simp_all [valRel]
    | bool y => simp_all [valRel]
    | closure y =>
      cases c with
      | int z => simp_all [valRel]
      | bool z => simp_all [valRel]
      | closure z =>
        obtain ⟨ha1, ha2, ha3⟩ := h1
        obtain ⟨hb1, hb2, hb3⟩ := h2
        exact ⟨ha1.trans hb1, ha2.trans hb2, by simp only [ha3, Option.bind_some]; exact hb3⟩

theorem envRel_comp {σ τ : Nat → Option Nat} {a b c : Env}
    (h1 : envRel σ a b) (h2 : envRel τ b c) :
    envRel (fun i => (σ i).bind τ) a c := by
  induction h1 generalizing c with
  | nil => cases h2; exact List.Forall₂.nil
  | cons hp hrest ih =>
    cases h2 with
    | cons hq hrest' =>
      exact List.Forall₂.cons
        ⟨hp.1.trans hq.1, valRel_comp hp.2 hq.2⟩ (ih hrest')

theorem envRel_insert {σ : Nat → Option Nat} {e e' : Env} {v v' : Value}
    (he : envRel σ e e') (hv : valRel σ v v') (k : Name) :
    envRel σ (envInsert k v e) (envInsert k v' e') := by
  induction he with
  | nil => exact List.Forall₂.cons ⟨rfl, hv⟩ List.Forall₂.nil
  | cons hp hrest ih =>
    rename_i p q l₁ l₂
    simp only [envInsert]
    rcases hk : decide (p.1 = k) with _ | _
    · have hk' : ¬ p.1 = k := of_decide_eq_false hk
      rw [if_neg hk', if_neg (by rw [← hp.1]; exact hk')]
      exact List.Forall₂.cons hp ih
    · have hk' : p.1 = k := of_decide_eq_true hk
      rw [if_pos hk', if_pos (by rw [← hp.1]; exact hk')]
      exact List.Forall₂.cons ⟨rfl, hv⟩ hrest

theorem envRel_lookup {σ : Nat → Option Nat} {e e' : Env}
    (he : envRel σ e e') (k : Name) :
    (envLookup k e = none ∧ envLookup k e' = none) ∨
    (∃ v v', envLookup k e = some v ∧ envLookup k e' = some v' ∧
      valRel σ v v') := by
  induction he with
  | nil => exact Or.inl ⟨rfl, rfl⟩
  | cons hp hrest ih =>
    rename_i p q l₁ l₂
    simp only [envLookup]
    by_cases hk : p.1 = k
    · right
      rw [if_pos hk, if_pos (by rw [← hp.1]; exact hk)]
      exact ⟨p.2, q.2, rfl, rfl, hp.2⟩
    · rw [if_neg hk, if_neg (by rw [← hp.1]; exact hk)]
      exact ih

/-! ### `moved`-map lemmas -/

theorem movedLookup_some_mem {mv : List (Nat × Nat)} {i j : Nat}
    (h : movedLookup i mv = some j) : (i, j) ∈ mv := by
  induction mv with
  | nil => cases h
  | cons p rest ih =>
    simp only [movedLookup] at h
    split at h
    · cases h
      rename_i hk
      have : p = (i, p.2) := by
        obtain ⟨a, b⟩ := p
        simp only at hk
        rw [hk]
      rw [this]
      exact List.mem_cons_self _ _
    · exact List.mem_cons_of_mem _ (ih h)

theorem movedLookup_mem_some {mv : List (Nat × Nat)} {i j : Nat}
    (hnd : (mv.map Prod.fst).Nodup) (h : (i, j) ∈ mv) :
    movedLookup i mv = some j := by
  induction mv with
  | nil => cases h
  | cons p rest ih =>
    simp only [List.map_cons, List.nodup_cons] at hnd
    rcases List.mem_cons.1 h with h | h
    · subst h
      simp [movedLookup]
    · have hne : p.1 ≠ i := by
        intro hc
        exact hnd.1 (by rw [hc]; exact List.mem_map_of_mem Prod.fst h)
      simp only [movedLookup, if_neg hne]
      exact ih hnd.2 h

theorem movedLookup_none_not_mem {mv : List (Nat × Nat)} {i : Nat}
    (h : movedLookup i mv = none) : ∀ j, (i, j) ∉ mv := by
  induction mv with
  | nil => intro j hj; cases hj
  | cons p rest ih =>
    intro j hj
    simp only [movedLookup] at h
    split at h
    · cases h
    · rename_i hk
      rcases List.mem_cons.1 hj with hj | hj
      · exact hk (by rw [← hj])
      · exact ih h j hj

theorem movedLookup_append {a b : List (Nat × Nat)} {i : Nat} :
    movedLookup i (a ++ b) =
      match movedLookup i a with
      | some j => some j
      | none => movedLookup i b := by
  induction a with
  | nil => simp [movedLookup]
  | cons p rest ih =>
    simp only [List.cons_append, movedLookup]
    split <;> simp [ih]

/-- Lookups in an extension `pre ++ mv` with globally distinct keys agree
with lookups in `mv`. -/
theorem movedLookup_extend {pre mv : List (Nat × Nat)} {i j : Nat}
    (hnd : ((pre ++ mv).map Prod.fst).Nodup)
    (h : movedLookup i mv = some j) : movedLookup i (pre ++ mv) = some j :=
  movedLookup_mem_some hnd (List.mem_append_right _ (movedLookup_some_mem h))

/-- An entry of a map whose second components are `(range n).reverse` has
its second component below the length. -/
theorem snd_lt_of_mem {mv : List (Nat × Nat)} {i j : Nat}
    (hseq : mv.map Prod.snd = (List.range mv.length).reverse)
    (h : (i, j) ∈ mv) : j < mv.length := by
  have : j ∈ mv.map Prod.snd := List.mem_map_of_mem Prod.snd h
  rw [hseq, List.mem_reverse, List.mem_range] at this
  exact this

/-- Two entries with the same new index coincide in their old index. -/
theorem fst_eq_of_snd_eq {mv : List (Nat × Nat)} {i i' j : Nat}
    (hnd : (mv.map Prod.snd).Nodup)
    (h : (i, j) ∈ mv) (h' : (i', j) ∈ mv) : i = i' := by
  induction mv with
  | nil => cases h
  | cons p rest ih =>
    simp only [List.map_cons, List.nodup_cons] at hnd
    rcases List.mem_cons.1 h with h | h <;>
      rcases List.mem_cons.1 h' with h' | h'
    · exact congrArg Prod.fst (h.trans h'.symm)
    · exact absurd
        (by rw [← h]; simpa using List.mem_map_of_mem Prod.snd h') hnd.1
    · exact absurd
        (by rw [← h']; simpa using List.mem_map_of_mem Prod.snd h) hnd.1
    · exact ih hnd.2 h h'

/-! ### `List.getD` bookkeeping for the heap model -/

theorem getD_append_lt {α : Type} (l l' : List α) (n : Nat) (d : α)
    (h : n < l.length) : (l ++ l').getD n d = l.getD n d :=
  List.getD_append l l' d n h

theorem getD_append_self {α : Type} (l : List α) (x d : α) :
    (l ++ [x]).getD l.length d = x := by
  rw [List.getD_append_right l [x] d l.length (le_refl _)]
  simp [List.getD]

theorem getD_set_self {α : Type} {l : List α} {i : Nat} (x d : α)
    (h : i < l.length) : (l.set i x).getD i d = x := by
  rw [List.getD_eq_getElem _ _ (by simpa using h)]
  simp

theorem getD_set_ne {α : Type} {l : List α} {i k : Nat} (x d : α)
    (h : i ≠ k) : (l.set i x).getD k d = l.getD k d := by
  by_cases hk : k < l.length
  · rw [List.getD_eq_getElem _ _ (by simpa using hk),
      List.getD_eq_getElem _ _ hk]
    exact List.getElem_set_ne h _
  · rw [List.getD_eq_default _ _ (by simpa using hk),
      List.getD_eq_default _ _ (by omega)]

/-! ### The specification of `collect` (C2) -/

/-- One `collect` work item: the value is rewritten through the extended
`moved` map, and the collector-state invariant survives. -/
theorem gcValue_spec {S : List Env} {v : Value} {s : GcSt}
    (hinv : GcInv S s) (hv : validValue S.length v) :
    GcInv S (gcValue v s).2 ∧
    valRel (fun i => movedLookup i (gcValue v s).2.moved) v (gcValue v s).1 ∧
    (∃ pre, (gcValue v s).2.moved = pre ++ s.moved) ∧
    (gcValue v s).2.startIndex = s.startIndex ∧
    (∃ wsuf, (gcValue v s).2.wave = s.wave ++ wsuf) := by
  cases v with
  | int i => exact ⟨hinv, rfl, ⟨[], rfl⟩, rfl, ⟨[], by simp [gcValue]⟩⟩
  | bool b => exact ⟨hinv, rfl, ⟨[], rfl⟩, rfl, ⟨[], by simp [gcValue]⟩⟩
  | closure c =>
    rcases hm : movedLookup c.env s.moved with _ | j
    case some =>
      have hgc : gcValue (Value.closure c) s =
          (.closure ⟨c.arg, c.frame, j⟩, s) := by
        simp [gcValue, hm]
      rw [hgc]
      exact ⟨hinv, ⟨rfl, rfl, hm⟩, ⟨[], rfl⟩, rfl, ⟨[], by simp⟩⟩
    case none =>
      have hgc : gcValue (Value.closure c) s =
          (.closure ⟨c.arg, c.frame, s.startIndex + s.wave.length⟩,
           ⟨(c.env, s.startIndex + s.wave.length) :: s.moved,
            s.oldEnvs.set c.env [],
            s.wave ++ [s.oldEnvs.getD c.env []], s.startIndex⟩) := by
        simp [gcValue, hm]
      rw [hgc]
      have henvlt : c.env < S.length := hv
      have hkept : s.oldEnvs.getD c.env [] = S.getD c.env [] :=
        hinv.oldKept c.env hm
      have hnotmem : c.env ∉ s.moved.map Prod.fst := by
        intro hc
        obtain ⟨p, hp, hp1⟩ := List.mem_map.1 hc
        have : (c.env, p.2) ∈ s.moved := by
          have : p = (c.env, p.2) := by
            obtain ⟨a, b⟩ := p
            simp only at hp1
            rw [hp1]
          rw [← this]
          exact hp
        exact movedLookup_none_not_mem hm p.2 this
      have hjnew : s.startIndex + s.wave.length = s.moved.length :=
        hinv.total.symm
      refine ⟨?_, ?_, ⟨[(c.env, s.startIndex + s.wave.length)], rfl⟩, rfl,
        ⟨[s.oldEnvs.getD c.env []], rfl⟩⟩
      · refine ⟨?_, ?_, ?_, ?_, ?_, ?_, ?_, ?_⟩
        · intro p hp
          rcases List.mem_cons.1 hp with hp | hp
          · rw [hp]; exact henvlt
          · exact hinv.keysLt p hp
        · simp only [List.map_cons, List.nodup_cons]
          exact ⟨hnotmem, hinv.keysNodup⟩
        · simp only [List.map_cons, List.length_cons, hjnew, hinv.sndSeq,
            List.range_succ, List.reverse_append, List.reverse_singleton,
            List.singleton_append]
        · show s.moved.length + 1 =
            s.startIndex + (s.wave ++ [s.oldEnvs.getD c.env []]).length
          rw [List.length_append]
          simp only [List.length_singleton]
          omega
        · rw [List.length_set]; exact hinv.oldLen
        · intro i j hij
          rcases List.mem_cons.1 hij with hij | hij
          · cases hij
            exact getD_set_self _ _ (by rw [hinv.oldLen]; exact henvlt)
          · by_cases hic : c.env = i
            · subst hic
              exact getD_set_self _ _ (by rw [hinv.oldLen]; exact henvlt)
            · rw [getD_set_ne _ _ hic]
              exact hinv.oldMoved i j hij
        · intro i hi
          simp only [movedLookup] at hi
          split at hi
          · cases hi
          · rename_i hne
            rw [getD_set_ne _ _ (by simpa using hne)]
            exact hinv.oldKept i hi
        · intro i j hij hle
          rcases List.mem_cons.1 hij with hij | hij
          · cases hij
            have hsub : s.startIndex + s.wave.length - s.startIndex =
                s.wave.length := by omega
            rw [hsub, getD_append_self]
            exact hkept
          · have hjlt : j < s.moved.length := snd_lt_of_mem hinv.sndSeq hij
            have hle' : s.startIndex ≤ j := hle
            have htot := hinv.total
            show (s.wave ++ [s.oldEnvs.getD c.env []]).getD
              (j - s.startIndex) [] = S.getD i []
            rw [getD_append_lt _ _ _ _ (by omega)]
            exact hinv.waveCont i j hij hle'
      · refine ⟨rfl, rfl, ?_⟩
        simp [movedLookup]

theorem gcValues_cons (v : Value) (vs : List Value) (s : GcSt) :
    gcValues (v :: vs) s =
      ((gcValue v s).1 :: (gcValues vs (gcValue v s).2).1,
        (gcValues vs (gcValue v s).2).2) := rfl

theorem gcEnv_cons (p : Name × Value) (rest : Env) (s : GcSt) :
    gcEnv (p :: rest) s =
      ((p.1, (gcValue p.2 s).1) :: (gcEnv rest (gcValue p.2 s).2).1,
        (gcEnv rest (gcValue p.2 s).2).2) := rfl

theorem gcEnvs_cons (env : Env) (rest : List Env) (s : GcSt) :
    gcEnvs (env :: rest) s =
      ((gcEnv env s).1 :: (gcEnvs rest (gcEnv env s).2).1,
        (gcEnvs rest (gcEnv env s).2).2) := rfl

theorem gcValues_spec (S : List Env) (vs : List Value) (s : GcSt)
    (hinv : GcInv S s) (hvs : ∀ v ∈ vs, validValue S.length v) :
    GcInv S (gcValues vs s).2 ∧
    List.Forall₂ (valRel (fun i => movedLookup i (gcValues vs s).2.moved))
      vs (gcValues vs s).1 ∧
    (∃ pre, (gcValues vs s).2.moved = pre ++ s.moved) ∧
    (gcValues vs s).2.startIndex = s.startIndex ∧
    (∃ wsuf, (gcValues vs s).2.wave = s.wave ++ wsuf) := by
  induction vs generalizing s with
  | nil => exact ⟨hinv, List.Forall₂.nil, ⟨[], rfl⟩, rfl, ⟨[], by simp [gcValues]⟩⟩
  | cons v rest ih =>
    obtain ⟨hinv₁, hrel₁, hext₁, hsi₁, hw₁⟩ :=
      gcValue_spec hinv (hvs v (List.mem_cons_self _ _))
    obtain ⟨hinv₂, hrel₂, hext₂, hsi₂, hw₂⟩ :=
      ih ((gcValue v s).2) hinv₁
        (fun w hw => hvs w (List.mem_cons_of_mem _ hw))
    rw [gcValues_cons]
    obtain ⟨pre₂, hpre₂⟩ := hext₂
    obtain ⟨pre₁, hpre₁⟩ := hext₁
    refine ⟨hinv₂, ?_, ⟨pre₂ ++ pre₁, by rw [hpre₂, hpre₁, List.append_assoc]⟩,
      hsi₂.trans hsi₁, ?_⟩
    · refine List.Forall₂.cons ?_ hrel₂
      refine valRel_mono ?_ hrel₁
      intro i j hij
      rw [hpre₂]
      exact movedLookup_extend (by rw [← hpre₂]; exact hinv₂.keysNodup) hij
    · obtain ⟨w₁, hww₁⟩ := hw₁
      obtain ⟨w₂, hww₂⟩ := hw₂
      exact ⟨w₁ ++ w₂, by rw [hww₂, hww₁, List.append_assoc]⟩

theorem gcEnv_spec (S : List Env) (env : Env) (s : GcSt)
    (hinv : GcInv S s) (henv : validEnv S.length env) :
    GcInv S (gcEnv env s).2 ∧
    envRel (fun i => movedLookup i (gcEnv env s).2.moved) env (gcEnv env s).1 ∧
    (∃ pre, (gcEnv env s).2.moved = pre ++ s.moved) ∧
    (gcEnv env s).2.startIndex = s.startIndex ∧
    (∃ wsuf, (gcEnv env s).2.wave = s.wave ++ wsuf) := by
  induction env generalizing s with
  | nil => exact ⟨hinv, List.Forall₂.nil, ⟨[], rfl⟩, rfl, ⟨[], by simp [gcEnv]⟩⟩
  | cons p rest ih =>
    obtain ⟨hinv₁, hrel₁, hext₁, hsi₁, hw₁⟩ :=
      gcValue_spec hinv (henv p (List.mem_cons_self _ _))
    obtain ⟨hinv₂, hrel₂, hext₂, hsi₂, hw₂⟩ :=
      ih ((gcValue p.2 s).2) hinv₁
        (fun q hq => henv q (List.mem_cons_of_mem _ hq))
    rw [gcEnv_cons]
    obtain ⟨pre₂, hpre₂⟩ := hext₂
    obtain ⟨pre₁, hpre₁⟩ := hext₁
    refine ⟨hinv₂, ?_, ⟨pre₂ ++ pre₁, by rw [hpre₂, hpre₁, List.append_assoc]⟩,
      hsi₂.trans hsi₁, ?_⟩
    · refine List.Forall₂.cons ⟨rfl, ?_⟩ hrel₂
      refine valRel_mono ?_ hrel₁
      intro i j hij
      rw [hpre₂]
      exact movedLookup_extend (by rw [← hpre₂]; exact hinv₂.keysNodup) hij
    · obtain ⟨w₁, hww₁⟩ := hw₁
      obtain ⟨w₂, hww₂⟩ := hw₂
      exact ⟨w₁ ++ w₂, by rw [hww₂, hww₁, List.append_assoc]⟩

theorem gcEnvs_spec (S : List Env) (envs : List Env) (s : GcSt)
    (hinv : GcInv S s) (henvs : ∀ e ∈ envs, validEnv S.length e) :
    GcInv S (gcEnvs envs s).2 ∧
    List.Forall₂ (envRel (fun i => movedLookup i (gcEnvs envs s).2.moved))
      envs (gcEnvs envs s).1 ∧
    (∃ pre, (gcEnvs envs s).2.moved = pre ++ s.moved) ∧
    (gcEnvs envs s).2.startIndex = s.startIndex ∧
    (∃ wsuf, (gcEnvs envs s).2.wave = s.wave ++ wsuf) := by
  induction envs generalizing s with
  | nil => exact ⟨hinv, List.Forall₂.nil, ⟨[], rfl⟩, rfl, ⟨[], by simp [gcEnvs]⟩⟩
  | cons env rest ih =>
    obtain ⟨hinv₁, hrel₁, hext₁, hsi₁, hw₁⟩ :=
      gcEnv_spec S env s hinv (henvs env (List.mem_cons_self _ _))
    obtain ⟨hinv₂, hrel₂, hext₂, hsi₂, hw₂⟩ :=
      ih ((gcEnv env s).2) hinv₁
        (fun e he => henvs e (List.mem_cons_of_mem _ he))
    rw [gcEnvs_cons]
    obtain ⟨pre₂, hpre₂⟩ := hext₂
    obtain ⟨pre₁, hpre₁⟩ := hext₁
    refine ⟨hinv₂, ?_, ⟨pre₂ ++ pre₁, by rw [hpre₂, hpre₁, List.append_assoc]⟩,
      hsi₂.trans hsi₁, ?_⟩
    · refine List.Forall₂.cons ?_ hrel₂
      refine envRel_mono ?_ hrel₁
      intro i j hij
      rw [hpre₂]
      exact movedLookup_extend (by rw [← hpre₂]; exact hinv₂.keysNodup) hij
    · obtain ⟨w₁, hww₁⟩ := hw₁
      obtain ⟨w₂, hww₂⟩ := hw₂
      exact ⟨w₁ ++ w₂, by rw [hww₂, hww₁, List.append_assoc]⟩

theorem nodup_lt_length_le {l : List Nat} {n : Nat} (hnd : l.Nodup)
    (hlt : ∀ x ∈ l, x < n) : l.length ≤ n := by
  have h1 : l.toFinset ⊆ Finset.range n := fun x hx =>
    Finset.mem_range.2 (hlt x (List.mem_toFinset.1 hx))
  have h2 := Finset.card_le_card h1
  rwa [List.toFinset_card_of_nodup hnd, Finset.card_range] at h2

theorem mem_snd_exists {mv : List (Nat × Nat)} {j : Nat}
    (hseq : mv.map Prod.snd = (List.range mv.length).reverse)
    (hj : j < mv.length) : ∃ i, (i, j) ∈ mv := by
  have hmem : j ∈ mv.map Prod.snd := by
    rw [hseq, List.mem_reverse, List.mem_range]
    exact hj
  obtain ⟨p, hp, hpj⟩ := List.mem_map.1 hmem
  refine ⟨p.1, ?_⟩
  have : (p.1, j) = p := by
    obtain ⟨a, b⟩ := p
    simp only at hpj
    rw [hpj]
  rw [this]
  exact hp

/-- In an extension `pre ++ mv` of a complete map `mv` (new indices of
`pre` all lie above `mv.length`), entries with a new index below
`mv.length` already belong to `mv`. -/
theorem mem_of_snd_lt (pre mv : List (Nat × Nat)) {i j : Nat}
    (hseqf : (pre ++ mv).map Prod.snd =
      (List.range (pre ++ mv).length).reverse)
    (hseq : mv.map Prod.snd = (List.range mv.length).reverse)
    (hij : (i, j) ∈ pre ++ mv) (hj : j < mv.length) : (i, j) ∈ mv := by
  obtain ⟨i', hi'⟩ := mem_snd_exists hseq hj
  have hndf : ((pre ++ mv).map Prod.snd).Nodup := by
    rw [hseqf]
    exact List.nodup_reverse.2 (List.nodup_range _)
  have : i = i' :=
    fst_eq_of_snd_eq hndf hij (List.mem_append_right _ hi')
  rw [this]
  exact hi'

theorem getD_take {α : Type} {l : List α} {d j : Nat} (x : α) (h : j < d) :
    (l.take d).getD j x = l.getD j x := by
  by_cases hj : j < l.length
  · rw [List.getD_eq_getElem _ _ (by rw [List.length_take]; omega),
      List.getD_eq_getElem _ _ hj]
    simp [List.getElem_take]
  · rw [List.getD_eq_default _ _ (by rw [List.length_take]; omega),
      List.getD_eq_default _ _ (by omega)]

theorem getD_drop {α : Type} {l : List α} (d k : Nat) (x : α) :
    (l.drop d).getD k x = l.getD (d + k) x := by
  by_cases hk : d + k < l.length
  · rw [List.getD_eq_getElem _ _ (by rw [List.length_drop]; omega),
      List.getD_eq_getElem _ _ hk]
    rw [List.getElem_drop]
  · rw [List.getD_eq_default _ _ (by rw [List.length_drop]; omega),
      List.getD_eq_default _ _ (by omega)]

theorem getD_append_ge {α : Type} (a b : List α) (j : Nat) (x : α)
    (h : a.length ≤ j) : (a ++ b).getD j x = b.getD (j - a.length) x :=
  List.getD_append_right a b x j h

theorem forall₂_getD {α β : Type} {R : α → β → Prop} {l₁ : List α}
    {l₂ : List β} (h : List.Forall₂ R l₁ l₂) {k : Nat} (d₁ : α) (d₂ : β)
    (hk : k < l₁.length) : R (l₁.getD k d₁) (l₂.getD k d₂) := by
  induction h generalizing k with
  | nil => simp at hk
  | cons hp hrest ih =>
    rename_i a b t₁ t₂
    cases k with
    | zero => simpa [List.getD] using hp
    | succ k =>
      have hk' : k < t₁.length := by simpa using hk
      simpa [List.getD] using ih hk'

theorem gcLoop_succ (fuel : Nat) (ns : List Env) (done : Nat)
    (mv : List (Nat × Nat)) (olds : List Env) :
    gcLoop (fuel + 1) ns done mv olds =
      (if (gcEnvs (ns.drop done) ⟨mv, olds, [], ns.length⟩).2.wave.isEmpty
       then
         ns.take done ++ (gcEnvs (ns.drop done) ⟨mv, olds, [], ns.length⟩).1
       else
         gcLoop fuel
           (ns.take done ++
             (gcEnvs (ns.drop done) ⟨mv, olds, [], ns.length⟩).1 ++
             (gcEnvs (ns.drop done) ⟨mv, olds, [], ns.length⟩).2.wave)
           ns.length
           (gcEnvs (ns.drop done) ⟨mv, olds, [], ns.length⟩).2.moved
           (gcEnvs (ns.drop done) ⟨mv, olds, [], ns.length⟩).2.oldEnvs) :=
  rfl

/-- The wave loop of the collector: with enough fuel it terminates with a
complete, injective move map whose entries all point at rewritten copies
of the original environments. -/
theorem gcLoop_spec {S : List Env}
    (hstorV : ∀ e ∈ S, validEnv S.length e) :
    ∀ (fuel : Nat) (ns : List Env) (done : Nat) (mv : List (Nat × Nat))
      (olds : List Env),
      LoopInv S ns done mv olds →
      S.length + 1 ≤ fuel + ns.length →
      ∃ mvf : List (Nat × Nat),
        (mvf.map Prod.fst).Nodup ∧
        mvf.map Prod.snd = (List.range mvf.length).reverse ∧
        (∀ p ∈ mvf, p.1 < S.length) ∧
        (∃ pre, mvf = pre ++ mv) ∧
        (gcLoop fuel ns done mv olds).length = mvf.length ∧
        (∀ i j, (i, j) ∈ mvf →
          envRel (fun k => movedLookup k mvf) (S.getD i [])
            ((gcLoop fuel ns done mv olds).getD j [])) := by
  intro fuel
  induction fuel with
  | zero =>
    intro ns done mv olds hinv hfuel
    exfalso
    have h1 : mv.length = ns.length := by simpa using hinv.base.total
    have h2 : (mv.map Prod.fst).length ≤ S.length := by
      refine nodup_lt_length_le hinv.base.keysNodup ?_
      intro x hx
      obtain ⟨p, hp, hpx⟩ := List.mem_map.1 hx
      rw [← hpx]
      exact hinv.base.keysLt p hp
    rw [List.length_map] at h2
    omega
  | succ fuel ih =>
    intro ns done mv olds hinv hfuel
    have hmvlen : mv.length = ns.length := by simpa using hinv.base.total
    have hvalidDrop : ∀ e ∈ ns.drop done, validEnv S.length e := by
      intro e he
      obtain ⟨k, hk, hek⟩ := List.mem_iff_getElem.1 he
      have hjlen : done + k < ns.length := by
        rw [List.length_drop] at hk
        omega
      have he' : e = ns.getD (done + k) [] := by
        rw [← getD_drop done k ([] : Env), List.getD_eq_getElem _ _ hk]
        exact hek.symm
      obtain ⟨i, hi⟩ := mem_snd_exists hinv.base.sndSeq
        (show done + k < mv.length by omega)
      have hpend := hinv.pending i (done + k) hi (by omega)
      rw [he', hpend]
      exact hstorV _ (getD_mem_of_lt (hinv.base.keysLt _ hi))
    rw [gcLoop_succ]
    set rest' := (gcEnvs (ns.drop done) ⟨mv, olds, [], ns.length⟩).1
      with hrestdef
    set s' := (gcEnvs (ns.drop done) ⟨mv, olds, [], ns.length⟩).2 with hsdef
    obtain ⟨hinv', hrel, hext, hsi, hw⟩ := gcEnvs_spec S
      (ns.drop done) ⟨mv, olds, [], ns.length⟩
      hinv.base hvalidDrop
    rw [← hsdef] at hinv' hext hsi
    rw [← hsdef, ← hrestdef] at hrel
    have hsmv : ∃ pre, s'.moved = pre ++ mv := hext
    obtain ⟨pre, hpre⟩ := hsmv
    have hsilen : s'.startIndex = ns.length := hsi
    have hs'len : s'.moved.length = ns.length + s'.wave.length := by
      have htot := hinv'.total
      rw [hsilen] at htot
      exact htot
    have hrestLen : rest'.length = ns.length - done := by
      rw [← List.Forall₂.length_eq hrel, List.length_drop]
    have hlenTR : (ns.take done ++ rest').length = ns.length := by
      rw [List.length_append, List.length_take, hrestLen]
      have := hinv.doneLe
      omega
    have hmain : ∀ i j, (i, j) ∈ s'.moved → j < ns.length →
        envRel (fun k => movedLookup k s'.moved) (S.getD i [])
          ((ns.take done ++ rest').getD j []) := by
      intro i j hij hjns
      have hjmv : j < mv.length := by omega
      have hijmv : (i, j) ∈ mv := by
        refine mem_of_snd_lt pre mv ?_ hinv.base.sndSeq
          ?_ hjmv
        · rw [← hpre]
          exact hinv'.sndSeq
        · rw [← hpre]
          exact hij
      by_cases hjd : j < done
      · have hproc := hinv.processed i j hijmv hjd
        have heq : (ns.take done ++ rest').getD j [] = ns.getD j [] := by
          rw [getD_append_lt _ _ _ _
            (by rw [List.length_take]; omega), getD_take _ hjd]
        rw [heq]
        refine envRel_mono ?_ hproc
        intro a b hab
        rw [hpre]
        exact movedLookup_extend (by rw [← hpre]; exact hinv'.keysNodup) hab
      · have hpend := hinv.pending i j hijmv (by omega)
        have hlt : j - done < (ns.drop done).length := by
          rw [List.length_drop]
          omega
        have hrelj := forall₂_getD hrel ([] : Env) ([] : Env) hlt
        rw [getD_drop] at hrelj
        have hdj : done + (j - done) = j := by omega
        rw [hdj, hpend] at hrelj
        have heq : (ns.take done ++ rest').getD j [] =
            rest'.getD (j - done) [] := by
          rw [getD_append_ge _ _ _ _ (by rw [List.length_take]; omega)]
          congr 1
          rw [List.length_take]
          omega
        rw [heq]
        exact hrelj
    split
    · -- the wave is empty: the loop stops here
      rename_i hwempty
      have hwnil : s'.wave = [] := List.isEmpty_iff.1 hwempty
      refine ⟨s'.moved, hinv'.keysNodup, hinv'.sndSeq, hinv'.keysLt,
        ⟨pre, hpre⟩, ?_, ?_⟩
      · rw [hlenTR, hs'len, hwnil]
        simp
      · intro i j hij
        have hjlt : j < s'.moved.length := snd_lt_of_mem hinv'.sndSeq hij
        have hjns : j < ns.length := by
          rw [hs'len, hwnil] at hjlt
          simpa using hjlt
        exact hmain i j hij hjns
    · -- the wave is non-empty: another round
      rename_i hwfull
      have hwne : s'.wave ≠ [] := by
        intro hc
        rw [hc] at hwfull
        simp at hwfull
      have hwlen : 0 < s'.wave.length := List.length_pos.2 hwne
      have hlenNew : (ns.take done ++ rest' ++ s'.wave).length =
          ns.length + s'.wave.length := by
        rw [List.length_append, hlenTR]
      have hinvNew : LoopInv S (ns.take done ++ rest' ++ s'.wave)
          ns.length s'.moved s'.oldEnvs := by
        refine ⟨⟨hinv'.keysLt, hinv'.keysNodup, hinv'.sndSeq, ?_,
          hinv'.oldLen, hinv'.oldMoved, hinv'.oldKept, ?_⟩, ?_, ?_, ?_⟩
        · show s'.moved.length = (ns.take done ++ rest' ++ s'.wave).length + 0
          rw [hlenNew, hs'len]
          omega
        · intro i j hij hle
          exfalso
          have hjlt : j < s'.moved.length := snd_lt_of_mem hinv'.sndSeq hij
          have hle' : (ns.take done ++ rest' ++ s'.wave).length ≤ j := hle
          rw [hlenNew] at hle'
          omega
        · show ns.length ≤ (ns.take done ++ rest' ++ s'.wave).length
          rw [hlenNew]
          omega
        · intro i j hij hjns
          have h := hmain i j hij hjns
          rw [show (ns.take done ++ rest' ++ s'.wave).getD j [] =
              (ns.take done ++ rest').getD j [] from
            getD_append_lt _ _ _ _ (by rw [hlenTR]; omega)]
          exact h
        · intro i j hij hle
          have hwc := hinv'.waveCont i j hij (by rw [hsilen]; exact hle)
          rw [hsilen] at hwc
          rw [getD_append_ge _ _ _ _ (by rw [hlenTR]; exact hle)]
          rw [hlenTR]
          exact hwc
      have hfuel' : S.length + 1 ≤
          fuel + (ns.take done ++ rest' ++ s'.wave).length := by
        rw [hlenNew]
        omega
      obtain ⟨mvf, h1, h2, h3, ⟨pre₂, hpre₂⟩, h5, h6⟩ :=
        ih _ _ _ _ hinvNew hfuel'
      exact ⟨mvf, h1, h2, h3,
        ⟨pre₂ ++ pre, by rw [hpre₂, hpre, List.append_assoc]⟩, h5, h6⟩

theorem forall₂_mem_right {α β : Type} {R : α → β → Prop} {l₁ : List α}
    {l₂ : List β} (h : List.Forall₂ R l₁ l₂) {b : β} (hb : b ∈ l₂) :
    ∃ a ∈ l₁, R a b := by
  induction h with
  | nil => cases hb
  | cons hp hrest ih =>
    rcases List.mem_cons.1 hb with hb | hb
    · subst hb
      exact ⟨_, List.mem_cons_self _ _, hp⟩
    · obtain ⟨a, ha, har⟩ := ih hb
      exact ⟨a, List.mem_cons_of_mem _ ha, har⟩

theorem valid_of_valRel {σ : Nat → Option Nat} {v v' : Value} {L : Nat}
    (hdom : ∀ i j, σ i = some j → j < L) (h : valRel σ v v') :
    validValue L v' := by
  cases v with
  | int a =>
    cases v' with
    | int b => trivial
    | bool b => cases h
    | closure c => cases h
  | bool a =>
    cases v' with
    | int b => cases h
    | bool b => trivial
    | closure c => cases h
  | closure c =>
    cases v' with
    | int b => cases h
    | bool b => cases h
    | closure d => exact hdom _ _ h.2.2

theorem valid_of_envRel {σ : Nat → Option Nat} {e e' : Env} {L : Nat}
    (hdom : ∀ i j, σ i = some j → j < L) (h : envRel σ e e') :
    validEnv L e' := by
  intro p hp
  induction h with
  | nil => cases hp
  | cons hq hrest ih =>
    rcases List.mem_cons.1 hp with hp | hp
    · subst hp
      exact valid_of_valRel hdom hq.2
    · exact ih hp

/-- The specification of `Machine::gc`: collection only renames the heap
indices of a valid machine — there is a partial renaming relating the old
state to the collected state — and the result is valid again. -/
theorem gc_spec {m : Machine} (hval : Valid m) :
    ∃ τ : Nat → Option Nat, MRel τ m m.gc ∧ Valid m.gc := by
  have hinv0 : GcInv m.storage ⟨[], m.storage, [], 0⟩ := by
    refine ⟨?_, ?_, ?_, ?_, ?_, ?_, ?_, ?_⟩
    · intro p hp; cases hp
    · exact List.nodup_nil
    · rfl
    · rfl
    · rfl
    · intro i j hij; cases hij
    · intro i _; rfl
    · intro i j hij; cases hij
  obtain ⟨hinvV, hrelV, hextV, hsiV, hwV⟩ := gcValues_spec m.storage
    m.values.reverse ⟨[], m.storage, [], 0⟩ hinv0
    (fun v hv => hval.values v (List.mem_reverse.1 hv))
  obtain ⟨hinvE, hrelE, hextE, hsiE, hwE⟩ := gcEnvs_spec m.storage
    m.environments.reverse
    ((gcValues m.values.reverse ⟨[], m.storage, [], 0⟩).2) hinvV
    (fun e he => hval.envs e (List.mem_reverse.1 he))
  set s₂ := (gcEnvs m.environments.reverse
    (gcValues m.values.reverse ⟨[], m.storage, [], 0⟩).2).2 with hs₂def
  have hsi₂ : s₂.startIndex = 0 := hsiE.trans hsiV
  have htot₂ : s₂.moved.length = s₂.wave.length := by
    have htot := hinvE.total
    rw [hsi₂] at htot
    omega
  have hinvLoop : LoopInv m.storage s₂.wave 0 s₂.moved s₂.oldEnvs := by
    refine ⟨⟨hinvE.keysLt, hinvE.keysNodup, hinvE.sndSeq, ?_, hinvE.oldLen,
      hinvE.oldMoved, hinvE.oldKept, ?_⟩, Nat.zero_le _, ?_, ?_⟩
    · show s₂.moved.length = s₂.wave.length + 0
      omega
    · intro i j hij hle
      exfalso
      have hjlt : j < s₂.moved.length := snd_lt_of_mem hinvE.sndSeq hij
      have hle' : s₂.wave.length ≤ j := hle
      omega
    · intro i j hij hjlt
      exact absurd hjlt (by omega)
    · intro i j hij _
      have hwc := hinvE.waveCont i j hij (by rw [hsi₂]; omega)
      rw [hsi₂] at hwc
      simpa using hwc
  obtain ⟨mvf, h1, h2, h3, ⟨preL, hpreL⟩, h5, h6⟩ :=
    gcLoop_spec hval.storage (m.storage.length + 1) s₂.wave 0 s₂.moved
      s₂.oldEnvs hinvLoop (by omega)
  have hgcv : m.gc.values =
      (gcValues m.values.reverse ⟨[], m.storage, [], 0⟩).1.reverse := rfl
  have hgce : m.gc.environments =
      (gcEnvs m.environments.reverse
        (gcValues m.values.reverse ⟨[], m.storage, [], 0⟩).2).1.reverse := rfl
  have hgcs : m.gc.storage =
      gcLoop (m.storage.length + 1) s₂.wave 0 s₂.moved s₂.oldEnvs := rfl
  have hmono₂ : ∀ i j, movedLookup i s₂.moved = some j →
      movedLookup i mvf = some j := by
    intro i j hij
    rw [hpreL]
    exact movedLookup_extend (by rw [← hpreL]; exact h1) hij
  have hmono₁ : ∀ i j,
      movedLookup i
        (gcValues m.values.reverse ⟨[], m.storage, [], 0⟩).2.moved = some j →
      movedLookup i mvf = some j := by
    intro i j hij
    obtain ⟨preE, hpreE⟩ := hextE
    refine hmono₂ i j ?_
    rw [hpreE]
    exact movedLookup_extend
      (by
        have hnd₂ : (s₂.moved.map Prod.fst).Nodup := hinvE.keysNodup
        rw [hpreE] at hnd₂
        exact hnd₂) hij
  have hdom : ∀ i j, movedLookup i mvf = some j →
      j < m.gc.storage.length := by
    intro i j hij
    rw [hgcs, h5]
    exact snd_lt_of_mem h2 (movedLookup_some_mem hij)
  refine ⟨fun i => movedLookup i mvf, ⟨?_, ?_, ?_, rfl, ?_, ?_⟩, ?_, ?_, ?_⟩
  · intro i i' j hi hi'
    exact fst_eq_of_snd_eq
      (by rw [h2]; exact List.nodup_reverse.2 (List.nodup_range _))
      (movedLookup_some_mem hi) (movedLookup_some_mem hi')
  · rw [hgcv]
    have hrev := List.rel_reverse hrelV
    rw [List.reverse_reverse] at hrev
    exact List.Forall₂.imp (fun a b hab => valRel_mono hmono₁ hab) hrev
  · rw [hgce]
    have hrev := List.rel_reverse hrelE
    rw [List.reverse_reverse] at hrev
    exact List.Forall₂.imp (fun a b hab => envRel_mono hmono₂ hab) hrev
  · intro i j hij
    exact ⟨h3 _ (movedLookup_some_mem hij), hdom i j hij⟩
  · intro i j hij
    show envRel _ (m.storage.getD i []) (m.gc.storage.getD j [])
    rw [hgcs]
    exact h6 i j (movedLookup_some_mem hij)
  · intro v hv
    rw [hgcv] at hv
    have hrev := List.rel_reverse hrelV
    rw [List.reverse_reverse] at hrev
    obtain ⟨u, _, hur⟩ := forall₂_mem_right hrev hv
    exact valid_of_valRel hdom (valRel_mono hmono₁ hur)
  · intro e he
    rw [hgce] at he
    have hrev := List.rel_reverse hrelE
    rw [List.reverse_reverse] at hrev
    obtain ⟨u, _, hur⟩ := forall₂_mem_right hrev he
    exact valid_of_envRel hdom (envRel_mono hmono₂ hur)
  · intro e he
    rw [hgcs] at he
    obtain ⟨k, hk, hek⟩ := List.mem_iff_getElem.1 he
    have hklen : k < mvf.length := by rw [← h5]; exact hk
    obtain ⟨i, hi⟩ := mem_snd_exists h2 hklen
    have hrel := h6 i k hi
    have hek' : e = (gcLoop (m.storage.length + 1) s₂.wave 0 s₂.moved
        s₂.oldEnvs).getD k [] := by
      rw [List.getD_eq_getElem _ _ hk]
      exact hek.symm
    rw [hek']
    exact valid_of_envRel hdom hrel

/-! ### Lockstep execution of related machines (C2) -/

theorem push_rel {σ : Nat → Option Nat} {m₁ m₂ : Machine} {v₁ v₂ : Value}
    (hrel : MRel σ m₁ m₂) (hv : valRel σ v₁ v₂) :
    MRel σ (m₁.pushValue v₁) (m₂.pushValue v₂) :=
  ⟨hrel.inj, List.Forall₂.cons hv hrel.values, hrel.envs, hrel.acts,
    hrel.domLt, hrel.storage⟩

theorem popValue_rel {σ : Nat → Option Nat} {m₁ m₂ : Machine}
    (hrel : MRel σ m₁ m₂) :
    (∃ e, m₁.popValue = .error e ∧ m₂.popValue = .error e) ∨
    (∃ v₁ v₂ n₁ n₂, m₁.popValue = .ok (v₁, n₁) ∧ m₂.popValue = .ok (v₂, n₂) ∧
      valRel σ v₁ v₂ ∧ MRel σ n₁ n₂) := by
  have hv := hrel.values
  cases h1 : m₁.values with
  | nil =>
    rw [h1] at hv
    have h2 : m₂.values = [] := List.forall₂_nil_left_iff.mp hv
    left
    exact ⟨.fatal "empty stack",
      by simp [Machine.popValue, h1],
      by simp [Machine.popValue, h2]⟩
  | cons v₁ t₁ =>
    rw [h1] at hv
    rcases List.forall₂_cons_left_iff.mp hv with ⟨v₂, t₂, hp, hrest, h2⟩
    right
    refine ⟨v₁, v₂, { m₁ with values := t₁ }, { m₂ with values := t₂ },
      ?_, ?_, hp, ?_⟩
    · simp [Machine.popValue, h1]
    · simp [Machine.popValue, h2]
    · exact ⟨hrel.inj, hrest, hrel.envs, hrel.acts, hrel.domLt, hrel.storage⟩

theorem popInt_rel {σ : Nat → Option Nat} {m₁ m₂ : Machine}
    (hrel : MRel σ m₁ m₂) :
    (∃ e, m₁.popInt = .error e ∧ m₂.popInt = .error e) ∨
    (∃ i n₁ n₂, m₁.popInt = .ok (i, n₁) ∧ m₂.popInt = .ok (i, n₂) ∧
      MRel σ n₁ n₂) := by
  rcases popValue_rel hrel with ⟨e, he1, he2⟩ | ⟨v₁, v₂, n₁, n₂, hp1, hp2, hv, hn⟩
  · exact Or.inl ⟨e, by simp [Machine.popInt, he1], by simp [Machine.popInt, he2]⟩
  cases v₁ with
  | int i =>
    cases v₂ with
    | int i' =>
      have : i = i' := hv
      subst this
      exact Or.inr ⟨i, n₁, n₂, by simp [Machine.popInt, hp1],
        by simp [Machine.popInt, hp2], hn⟩
    | bool b => cases hv
    | closure c => cases hv
  | bool b =>
    cases v₂ with
    | int i => cases hv
    | bool b' =>
      exact Or.inl ⟨.fatal "runtime type error",
        by simp [Machine.popInt, hp1], by simp [Machine.popInt, hp2]⟩
    | closure c => cases hv
  | closure c =>
    cases v₂ with
    | int i => cases hv
    | bool b => cases hv
    | closure d =>
      exact Or.inl ⟨.fatal "runtime type error",
        by simp [Machine.popInt, hp1], by simp [Machine.popInt, hp2]⟩

theorem popBool_rel {σ : Nat → Option Nat} {m₁ m₂ : Machine}
    (hrel : MRel σ m₁ m₂) :
    (∃ e, m₁.popBool = .error e ∧ m₂.popBool = .error e) ∨
    (∃ b n₁ n₂, m₁.popBool = .ok (b, n₁) ∧ m₂.popBool = .ok (b, n₂) ∧
      MRel σ n₁ n₂) := by
  rcases popValue_rel hrel with ⟨e, he1, he2⟩ | ⟨v₁, v₂, n₁, n₂, hp1, hp2, hv, hn⟩
  · exact Or.inl ⟨e, by simp [Machine.popBool, he1], by simp [Machine.popBool, he2]⟩
  cases v₁ with
  | bool b =>
    cases v₂ with
    | bool b' =>
      have : b = b' := hv
      subst this
      exact Or.inr ⟨b, n₁, n₂, by simp [Machine.popBool, hp1],
        by simp [Machine.popBool, hp2], hn⟩
    | int i => cases hv
    | closure c => cases hv
  | int i =>
    cases v₂ with
    | bool b => cases hv
    | int i' =>
      exact Or.inl ⟨.fatal "runtime type error",
        by simp [Machine.popBool, hp1], by simp [Machine.popBool, hp2]⟩
    | closure c => cases hv
  | closure c =>
    cases v₂ with
    | int i => cases hv
    | bool b => cases hv
    | closure d =>
      exact Or.inl ⟨.fatal "runtime type error",
        by simp [Machine.popBool, hp1], by simp [Machine.popBool, hp2]⟩

theorem popClosure_rel {σ : Nat → Option Nat} {m₁ m₂ : Machine}
    (hrel : MRel σ m₁ m₂) :
    (∃ e, m₁.popClosure = .error e ∧ m₂.popClosure = .error e) ∨
    (∃ c₁ c₂ n₁ n₂, m₁.popClosure = .ok (c₁, n₁) ∧
      m₂.popClosure = .ok (c₂, n₂) ∧ c₁.arg = c₂.arg ∧ c₁.frame = c₂.frame ∧
      σ c₁.env = some c₂.env ∧ MRel σ n₁ n₂) := by
  rcases popValue_rel hrel with ⟨e, he1, he2⟩ | ⟨v₁, v₂, n₁, n₂, hp1, hp2, hv, hn⟩
  · exact Or.inl ⟨e, by simp [Machine.popClosure, he1],
      by simp [Machine.popClosure, he2]⟩
  cases v₁ with
  | closure c =>
    cases v₂ with
    | closure d =>
      exact Or.inr ⟨c, d, n₁, n₂, by simp [Machine.popClosure, hp1],
        by simp [Machine.popClosure, hp2], hv.1, hv.2.1, hv.2.2, hn⟩
    | int i => cases hv
    | bool b => cases hv
  | int i =>
    cases v₂ with
    | closure c => cases hv
    | int i' =>
      exact Or.inl ⟨.fatal "runtime type error",
        by simp [Machine.popClosure, hp1], by simp [Machine.popClosure, hp2]⟩
    | bool b => cases hv
  | bool b =>
    cases v₂ with
    | int i => cases hv
    | closure c => cases hv
    | bool b' =>
      exact Or.inl ⟨.fatal "runtime type error",
        by simp [Machine.popClosure, hp1], by simp [Machine.popClosure, hp2]⟩

theorem currentEnv_rel {σ : Nat → Option Nat} {m₁ m₂ : Machine}
    (hrel : MRel σ m₁ m₂) :
    (∃ e, m₁.currentEnv = .error e ∧ m₂.currentEnv = .error e) ∨
    (∃ env₁ env₂, m₁.currentEnv = .ok env₁ ∧ m₂.currentEnv = .ok env₂ ∧
      envRel σ env₁ env₂) := by
  have hv := hrel.envs
  cases h1 : m₁.environments with
  | nil =>
    rw [h1] at hv
    have h2 : m₂.environments = [] := List.forall₂_nil_left_iff.mp hv
    left
    exact ⟨.panic "called Option::unwrap() on a None value",
      by simp [Machine.currentEnv, h1], by simp [Machine.currentEnv, h2]⟩
  | cons env₁ t₁ =>
    rw [h1] at hv
    rcases List.forall₂_cons_left_iff.mp hv with ⟨env₂, t₂, hp, hrest, h2⟩
    right
    exact ⟨env₁, env₂, by simp [Machine.currentEnv, h1],
      by simp [Machine.currentEnv, h2], hp⟩

theorem popEnvStep_rel {σ : Nat → Option Nat} {m₁ m₂ : Machine}
    (hrel : MRel σ m₁ m₂) :
    (∃ e, m₁.popEnv = .error e ∧ m₂.popEnv = .error e) ∨
    (∃ n₁ n₂, m₁.popEnv = .ok n₁ ∧ m₂.popEnv = .ok n₂ ∧ MRel σ n₁ n₂) := by
  have hv := hrel.envs
  cases h1 : m₁.environments with
  | nil =>
    rw [h1] at hv
    have h2 : m₂.environments = [] := List.forall₂_nil_left_iff.mp hv
    left
    exact ⟨.fatal "no environment",
      by simp [Machine.popEnv, h1], by simp [Machine.popEnv, h2]⟩
  | cons env₁ t₁ =>
    rw [h1] at hv
    rcases List.forall₂_cons_left_iff.mp hv with ⟨env₂, t₂, hp, hrest, h2⟩
    right
    refine ⟨{ m₁ with environments := t₁ }, { m₂ with environments := t₂ },
      by simp [Machine.popEnv, h1], by simp [Machine.popEnv, h2], ?_⟩
    exact ⟨hrel.inj, hrel.values, hrest, hrel.acts, hrel.domLt, hrel.storage⟩

/-! ### Validity is preserved by execution (C2) -/

theorem validValue_mono {L L' : Nat} (h : L ≤ L') {v : Value}
    (hv : validValue L v) : validValue L' v := by
  cases v with
  | int i => trivial
  | bool b => trivial
  | closure c => exact Nat.lt_of_lt_of_le hv h

theorem validEnv_mono {L L' : Nat} (h : L ≤ L') {e : Env}
    (he : validEnv L e) : validEnv L' e :=
  fun p hp => validValue_mono h (he p hp)

theorem envInsert_valid {L : Nat} {e : Env} (he : validEnv L e) {v : Value}
    (hv : validValue L v) (k : Name) : validEnv L (envInsert k v e) := by
  induction e with
  | nil =>
    intro p hp
    simp only [envInsert, List.mem_singleton] at hp
    subst hp; exact hv
  | cons q rest ih =>
    intro p hp
    simp only [envInsert] at hp
    by_cases hk : q.1 = k
    · rw [if_pos hk] at hp
      rcases List.mem_cons.1 hp with hp | hp
      · subst hp; exact hv
      · exact he p (List.mem_cons_of_mem _ hp)
    · rw [if_neg hk] at hp
      rcases List.mem_cons.1 hp with hp | hp
      · rw [hp]; exact he q (List.mem_cons_self _ _)
      · exact ih (fun r hr => he r (List.mem_cons_of_mem _ hr)) p hp

theorem envLookup_valid {L : Nat} {e : Env} (he : validEnv L e) {k : Name}
    {v : Value} (h : envLookup k e = some v) : validValue L v := by
  induction e with
  | nil => cases h
  | cons q rest ih =>
    simp only [envLookup] at h
    by_cases hk : q.1 = k
    · rw [if_pos hk] at h
      cases h
      exact he q (List.mem_cons_self _ _)
    · rw [if_neg hk] at h
      exact ih (fun r hr => he r (List.mem_cons_of_mem _ hr)) h

theorem valid_exec {inst : Instruction} {m m' : Machine}
    (hval : Valid m) (h : inst.exec m = .ok m') : Valid m' := by
  obtain ⟨hvals, henvs, hstor⟩ := hval
  cases inst with
  | arith op =>
    simp only [Instruction.exec] at h
    unfold ArithInstruction.exec at h
    split at h
    · cases h
    next op2 m₁ hp1 =>
    split at h
    · cases h
    next op1 m₂ hp2 =>
    obtain ⟨hv1, hs1, he1, ha1⟩ := popInt_ok hp1
    obtain ⟨hv2, hs2, he2, ha2⟩ := popInt_ok hp2
    have hsm : m₂.storage = m.storage := hs2.trans hs1
    have push : ∀ z : Int, Valid (m₂.pushInt z) := by
      intro z
      refine ⟨?_, ?_, ?_⟩
      · intro v hv
        rcases List.mem_cons.1 hv with hv | hv
        · subst hv; trivial
        · show validValue m₂.storage.length v
          rw [hsm]
          exact hvals v (by
            rw [hv1, hv2]
            exact List.mem_cons_of_mem _ (List.mem_cons_of_mem _ hv))
      · intro e he
        rw [show (m₂.pushInt z).environments = m₂.environments from rfl, he2,
          he1] at he
        show validEnv m₂.storage.length e
        rw [hsm]
        exact henvs e he
      · intro e he
        rw [show (m₂.pushInt z).storage = m₂.storage from rfl, hsm] at he
        show validEnv m₂.storage.length e
        rw [hsm]
        exact hstor e he
    split at h
    · cases h; exact push _
    · cases h; exact push _
    · cases h; exact push _
    · split at h
      · cases h
      · split at h
        · cases h
        · cases h; exact push _
  | cmp op =>
    simp only [Instruction.exec] at h
    unfold CmpInstruction.exec at h
    split at h
    · cases h
    next op2 m₁ hp1 =>
    split at h
    · cases h
    next op1 m₂ hp2 =>
    obtain ⟨hv1, hs1, he1, ha1⟩ := popInt_ok hp1
    obtain ⟨hv2, hs2, he2, ha2⟩ := popInt_ok hp2
    have hsm : m₂.storage = m.storage := hs2.trans hs1
    have push : ∀ z : Bool, Valid (m₂.pushBool z) := by
      intro z
      refine ⟨?_, ?_, ?_⟩
      · intro v hv
        rcases List.mem_cons.1 hv with hv | hv
        · subst hv; trivial
        · show validValue m₂.storage.length v
          rw [hsm]
          exact hvals v (by
            rw [hv1, hv2]
            exact List.mem_cons_of_mem _ (List.mem_cons_of_mem _ hv))
      · intro e he
        rw [show (m₂.pushBool z).environments = m₂.environments from rfl, he2,
          he1] at he
        show validEnv m₂.storage.length e
        rw [hsm]
        exact henvs e he
      · intro e he
        rw [show (m₂.pushBool z).storage = m₂.storage from rfl, hsm] at he
        show validEnv m₂.storage.length e
        rw [hsm]
        exact hstor e he
    split at h
    · cases h; exact push _
    · cases h; exact push _
    · cases h; exact push _
  | pushInt i =>
    simp only [Instruction.exec] at h
    cases h
    refine ⟨?_, henvs, hstor⟩
    intro v hv
    rcases List.mem_cons.1 hv with hv | hv
    · subst hv; trivial
    · exact hvals v hv
  | pushBool b =>
    simp only [Instruction.exec] at h
    cases h
    refine ⟨?_, henvs, hstor⟩
    intro v hv
    rcases List.mem_cons.1 hv with hv | hv
    · subst hv; trivial
    · exact hvals v hv
  | branch tru fls =>
    simp only [Instruction.exec] at h
    split at h
    · cases h
    next b m₁ hp =>
    obtain ⟨hv1, hs1, he1, ha1⟩ := popBool_ok hp
    cases h
    refine ⟨?_, ?_, ?_⟩
    · intro v hv
      show validValue m₁.storage.length v
      rw [hs1]
      exact hvals v (by rw [hv1]; exact List.mem_cons_of_mem _ hv)
    · intro e he
      rw [show (m₁.switchFrame (if b then tru else fls)).environments =
          m₁.environments from rfl, he1] at he
      show validEnv m₁.storage.length e
      rw [hs1]
      exact henvs e he
    · intro e he
      rw [show (m₁.switchFrame (if b then tru else fls)).storage =
          m₁.storage from rfl, hs1] at he
      show validEnv m₁.storage.length e
      rw [hs1]
      exact hstor e he
  | var n =>
    simp only [Instruction.exec] at h
    split at h
    · cases h
    next v hl =>
    cases h
    obtain ⟨env, tail, henv, hfound⟩ := lookup_ok hl
    refine ⟨?_, henvs, hstor⟩
    intro w hw
    rcases List.mem_cons.1 hw with hw | hw
    · subst hw
      exact envLookup_valid
        (henvs env (by rw [henv]; exact List.mem_cons_self _ _)) hfound
    · exact hvals w hw
  | closure name arg frame =>
    simp only [Instruction.exec] at h
    split at h
    · cases h
    next env hc =>
    cases h
    obtain ⟨tail, henv⟩ := currentEnv_ok hc
    have henvV : validEnv m.storage.length env :=
      henvs env (by rw [henv]; exact List.mem_cons_self _ _)
    have hL : (m.storage ++
        [envInsert name (Value.closure ⟨arg, frame, m.storage.length⟩)
          env]).length = m.storage.length + 1 := by simp
    refine ⟨?_, ?_, ?_⟩
    · intro v hv
      show validValue (m.storage ++
        [envInsert name (Value.closure ⟨arg, frame, m.storage.length⟩)
          env]).length v
      rw [hL]
      rcases List.mem_cons.1 hv with hv | hv
      · subst hv
        exact Nat.lt_succ_self _
      · exact validValue_mono (Nat.le_succ _) (hvals v hv)
    · intro e he
      show validEnv (m.storage ++
        [envInsert name (Value.closure ⟨arg, frame, m.storage.length⟩)
          env]).length e
      rw [hL]
      exact validEnv_mono (Nat.le_succ _) (henvs e he)
    · intro e he
      show validEnv (m.storage ++
        [envInsert name (Value.closure ⟨arg, frame, m.storage.length⟩)
          env]).length e
      rw [hL]
      rcases List.mem_append.1 he with he | he
      · exact validEnv_mono (Nat.le_succ _) (hstor e he)
      · have he' : e = envInsert name
            (.closure ⟨arg, frame, m.storage.length⟩) env := by
          simpa using he
        subst he'
        exact envInsert_valid (validEnv_mono (Nat.le_succ _) henvV)
          (Nat.lt_succ_self _) _
  | call =>
    simp only [Instruction.exec] at h
    split at h
    · cases h
    next argV m₁ hp1 =>
    split at h
    · cases h
    next c m₂ hp2 =>
    obtain ⟨hv1, hs1, he1, ha1⟩ := popValue_ok hp1
    obtain ⟨hv2, hs2, he2, ha2⟩ := popClosure_ok hp2
    have hsm : m₂.storage = m.storage := hs2.trans hs1
    split at h
    · next hin =>
      cases h
      have hargV : validValue m.storage.length argV :=
        hvals argV (by rw [hv1]; exact List.mem_cons_self _ _)
      have hce : validEnv m.storage.length (m₂.storage.getD c.env []) := by
        rw [hsm]
        exact hstor _ (getD_mem_of_lt (hsm ▸ hin))
      refine ⟨?_, ?_, ?_⟩
      · intro v hv
        show validValue m₂.storage.length v
        rw [hsm]
        exact hvals v (by
          rw [hv1, hv2]
          exact List.mem_cons_of_mem _ (List.mem_cons_of_mem _ hv))
      · intro e he
        show validEnv m₂.storage.length e
        rw [hsm]
        rcases List.mem_cons.1 he with he | he
        · subst he
          exact envInsert_valid hce hargV _
        · rw [he2, he1] at he
          exact henvs e he
      · intro e he
        rw [show ({ m₂ with
              environments :=
                envInsert c.arg argV (m₂.storage.getD c.env []) ::
                  m₂.environments
              activations := c.frame :: m₂.activations } : Machine).storage =
            m₂.storage from rfl, hsm] at he
        show validEnv m₂.storage.length e
        rw [hsm]
        exact hstor e he
    · cases h
  | popEnv =>
    simp only [Instruction.exec] at h
    unfold Machine.popEnv at h
    split at h
    · cases h
    next env rest hre =>
    cases h
    refine ⟨hvals, ?_, hstor⟩
    intro e he
    exact henvs e (by rw [hre]; exact List.mem_cons_of_mem _ he)

/-! ### Composition of machine relations (C2) -/

theorem forall₂_trans {α β γ : Type} {R : α → β → Prop} {S : β → γ → Prop}
    {T : α → γ → Prop} (h : ∀ a b c, R a b → S b c → T a c) :
    ∀ {l₁ : List α} {l₂ : List β} {l₃ : List γ},
      List.Forall₂ R l₁ l₂ → List.Forall₂ S l₂ l₃ → List.Forall₂ T l₁ l₃ := by
  intro l₁ l₂ l₃ h1
  induction h1 generalizing l₃ with
  | nil =>
    intro h2
    cases h2
    exact List.Forall₂.nil
  | cons hp hrest ih =>
    intro h2
    cases h2 with
    | cons hq hrest' => exact List.Forall₂.cons (h _ _ _ hp hq) (ih hrest')

theorem mrel_comp {σ τ : Nat → Option Nat} {a b c : Machine}
    (h1 : MRel σ a b) (h2 : MRel τ b c) :
    MRel (fun i => (σ i).bind τ) a c := by
  refine ⟨?_, ?_, ?_, h1.acts.trans h2.acts, ?_, ?_⟩
  · intro i i' j hi hi'
    simp only [Option.bind_eq_some] at hi hi'
    obtain ⟨k, hk, hkj⟩ := hi
    obtain ⟨k', hk', hkj'⟩ := hi'
    have : k = k' := h2.inj _ _ _ hkj hkj'
    subst this
    exact h1.inj _ _ _ hk hk'
  · exact forall₂_trans (fun _ _ _ => valRel_comp) h1.values h2.values
  · exact forall₂_trans (fun _ _ _ => envRel_comp) h1.envs h2.envs
  · intro i j hij
    simp only [Option.bind_eq_some] at hij
    obtain ⟨k, hk, hkj⟩ := hij
    exact ⟨(h1.domLt _ _ hk).1, (h2.domLt _ _ hkj).2⟩
  · intro i j hij
    simp only [Option.bind_eq_some] at hij
    obtain ⟨k, hk, hkj⟩ := hij
    exact envRel_comp (h1.storage _ _ hk) (h2.storage _ _ hkj)

theorem switchFrame_rel {σ : Nat → Option Nat} {m₁ m₂ : Machine}
    (hrel : MRel σ m₁ m₂) (f : List Instruction) :
    MRel σ (m₁.switchFrame f) (m₂.switchFrame f) :=
  ⟨hrel.inj, hrel.values, hrel.envs,
    by simp [Machine.switchFrame, hrel.acts], hrel.domLt, hrel.storage⟩

theorem lookup_rel {σ : Nat → Option Nat} {m₁ m₂ : Machine}
    (hrel : MRel σ m₁ m₂) (name : Name) :
    (∃ e, m₁.lookup name = .error e ∧ m₂.lookup name = .error e) ∨
    (∃ v₁ v₂, m₁.lookup name = .ok v₁ ∧ m₂.lookup name = .ok v₂ ∧
      valRel σ v₁ v₂) := by
  rcases currentEnv_rel hrel with ⟨e, h1, h2⟩ | ⟨env₁, env₂, h1, h2, henv⟩
  · exact Or.inl ⟨e, by simp [Machine.lookup, h1],
      by simp [Machine.lookup, h2]⟩
  rcases envRel_lookup henv name with ⟨hn1, hn2⟩ | ⟨v₁, v₂, hq1, hq2, hv⟩
  · exact Or.inl ⟨.fatal "undefined variable",
      by simp [Machine.lookup, h1, hn1], by simp [Machine.lookup, h2, hn2]⟩
  · exact Or.inr ⟨v₁, v₂, by simp [Machine.lookup, h1, hq1],
      by simp [Machine.lookup, h2, hq2], hv⟩

/-! ### One instruction in lockstep (C2) -/

theorem valRel_int (σ : Nat → Option Nat) (i : Int) :
    valRel σ (.int i) (.int i) := rfl

theorem valRel_bool (σ : Nat → Option Nat) (b : Bool) :
    valRel σ (.bool b) (.bool b) := rfl

theorem exec_rel_full (inst : Instruction) {σ : Nat → Option Nat}
    {m₁ m₂ : Machine} (hrel : MRel σ m₁ m₂) :
    (∃ e, inst.exec m₁ = .error e ∧ inst.exec m₂ = .error e) ∨
    (∃ σ' n₁ n₂, inst.exec m₁ = .ok n₁ ∧ inst.exec m₂ = .ok n₂ ∧
      MRel σ' n₁ n₂) := by
  cases inst with
  | arith op =>
    rcases popInt_rel hrel with ⟨e, he1, he2⟩ | ⟨op2, k₁, k₂, hp1, hp2, hrel1⟩
    · exact Or.inl ⟨e,
        by simp only [Instruction.exec, ArithInstruction.exec, he1],
        by simp only [Instruction.exec, ArithInstruction.exec, he2]⟩
    rcases popInt_rel hrel1 with ⟨e, he1, he2⟩ | ⟨op1, l₁, l₂, hq1, hq2, hrel2⟩
    · exact Or.inl ⟨e,
        by simp only [Instruction.exec, ArithInstruction.exec, hp1, he1],
        by simp only [Instruction.exec, ArithInstruction.exec, hp2, he2]⟩
    cases op with
    | add =>
      exact Or.inr ⟨σ, l₁.pushInt (wrap64 (op1 + op2)), l₂.pushInt (wrap64 (op1 + op2)),
        by simp only [Instruction.exec, ArithInstruction.exec, hp1, hq1],
        by simp only [Instruction.exec, ArithInstruction.exec, hp2, hq2],
        push_rel hrel2 (valRel_int σ _)⟩
    | sub =>
      exact Or.inr ⟨σ, l₁.pushInt (wrap64 (op1 - op2)), l₂.pushInt (wrap64 (op1 - op2)),
        by simp only [Instruction.exec, ArithInstruction.exec, hp1, hq1],
        by simp only [Instruction.exec, ArithInstruction.exec, hp2, hq2],
        push_rel hrel2 (valRel_int σ _)⟩
    | mul =>
      exact Or.inr ⟨σ, l₁.pushInt (wrap64 (op1 * op2)), l₂.pushInt (wrap64 (op1 * op2)),
        by simp only [Instruction.exec, ArithInstruction.exec, hp1, hq1],
        by simp only [Instruction.exec, ArithInstruction.exec, hp2, hq2],
        push_rel hrel2 (valRel_int σ _)⟩
    | div =>
      by_cases h0 : op2 = 0
      · exact Or.inl ⟨.runtime "Division by zero",
          by simp only [Instruction.exec, ArithInstruction.exec, hp1, hq1]
             rw [if_pos h0],
          by simp only [Instruction.exec, ArithInstruction.exec, hp2, hq2]
             rw [if_pos h0]⟩
      by_cases hov : op1 = i64Min ∧ op2 = -1
      · exact Or.inl ⟨.panic "attempt to divide with overflow",
          by simp only [Instruction.exec, ArithInstruction.exec, hp1, hq1]
             rw [if_neg h0, if_pos hov],
          by simp only [Instruction.exec, ArithInstruction.exec, hp2, hq2]
             rw [if_neg h0, if_pos hov]⟩
      · exact Or.inr ⟨σ, l₁.pushInt (op1.tdiv op2), l₂.pushInt (op1.tdiv op2),
          by simp only [Instruction.exec, ArithInstruction.exec, hp1, hq1]
             rw [if_neg h0, if_neg hov],
          by simp only [Instruction.exec, ArithInstruction.exec, hp2, hq2]
             rw [if_neg h0, if_neg hov],
          push_rel hrel2 (valRel_int σ _)⟩
  | cmp op =>
    rcases popInt_rel hrel with ⟨e, he1, he2⟩ | ⟨op2, k₁, k₂, hp1, hp2, hrel1⟩
    · exact Or.inl ⟨e,
        by simp only [Instruction.exec, CmpInstruction.exec, he1],
        by simp only [Instruction.exec, CmpInstruction.exec, he2]⟩
    rcases popInt_rel hrel1 with ⟨e, he1, he2⟩ | ⟨op1, l₁, l₂, hq1, hq2, hrel2⟩
    · exact Or.inl ⟨e,
        by simp only [Instruction.exec, CmpInstruction.exec, hp1, he1],
        by simp only [Instruction.exec, CmpInstruction.exec, hp2, he2]⟩
    cases op with
    | lt =>
      exact Or.inr ⟨σ, l₁.pushBool (decide (op1 < op2)), l₂.pushBool (decide (op1 < op2)),
        by simp only [Instruction.exec, CmpInstruction.exec, hp1, hq1],
        by simp only [Instruction.exec, CmpInstruction.exec, hp2, hq2],
        push_rel hrel2 (valRel_bool σ _)⟩
    | eq =>
      exact Or.inr ⟨σ, l₁.pushBool (decide (op1 = op2)), l₂.pushBool (decide (op1 = op2)),
        by simp only [Instruction.exec, CmpInstruction.exec, hp1, hq1],
        by simp only [Instruction.exec, CmpInstruction.exec, hp2, hq2],
        push_rel hrel2 (valRel_bool σ _)⟩
    | gt =>
      exact Or.inr ⟨σ, l₁.pushBool (decide (op1 > op2)), l₂.pushBool (decide (op1 > op2)),
        by simp only [Instruction.exec, CmpInstruction.exec, hp1, hq1],
        by simp only [Instruction.exec, CmpInstruction.exec, hp2, hq2],
        push_rel hrel2 (valRel_bool σ _)⟩
  | pushInt i =>
    exact Or.inr ⟨σ, m₁.pushInt i, m₂.pushInt i, rfl, rfl,
      push_rel hrel (valRel_int σ i)⟩
  | pushBool b =>
    exact Or.inr ⟨σ, m₁.pushBool b, m₂.pushBool b, rfl, rfl,
      push_rel hrel (valRel_bool σ b)⟩
  | branch tru fls =>
    rcases popBool_rel hrel with ⟨e, he1, he2⟩ | ⟨b, k₁, k₂, hp1, hp2, hrel1⟩
    · exact Or.inl ⟨e, by simp only [Instruction.exec, he1],
        by simp only [Instruction.exec, he2]⟩
    · exact Or.inr ⟨σ, _, _, by simp only [Instruction.exec, hp1],
        by simp only [Instruction.exec, hp2],
        switchFrame_rel hrel1 (if b then tru else fls)⟩
  | var name =>
    rcases lookup_rel hrel name with ⟨e, he1, he2⟩ | ⟨v₁, v₂, hl1, hl2, hv⟩
    · exact Or.inl ⟨e, by simp only [Instruction.exec, he1],
        by simp only [Instruction.exec, he2]⟩
    · exact Or.inr ⟨σ, _, _, by simp only [Instruction.exec, hl1],
        by simp only [Instruction.exec, hl2], push_rel hrel hv⟩
  | closure name arg frame =>
    rcases currentEnv_rel hrel with ⟨e, he1, he2⟩ | ⟨env₁, env₂, h1, h2, henv⟩
    · exact Or.inl ⟨e, by simp only [Instruction.exec, he1],
        by simp only [Instruction.exec, he2]⟩
    refine Or.inr ⟨fun i => if i = m₁.storage.length
        then some m₂.storage.length else σ i,
      { m₁ with
          storage := m₁.storage ++
            [envInsert name (.closure ⟨arg, frame, m₁.storage.length⟩) env₁]
          values := .closure ⟨arg, frame, m₁.storage.length⟩ :: m₁.values },
      { m₂ with
          storage := m₂.storage ++
            [envInsert name (.closure ⟨arg, frame, m₂.storage.length⟩) env₂]
          values := .closure ⟨arg, frame, m₂.storage.length⟩ :: m₂.values },
      by simp only [Instruction.exec, h1], by simp only [Instruction.exec, h2],
      ?_⟩
    have hmono : ∀ i j, σ i = some j →
        (if i = m₁.storage.length then some m₂.storage.length else σ i) =
          some j := by
      intro i j hij
      rw [if_neg (Nat.ne_of_lt (hrel.domLt i j hij).1)]
      exact hij
    have hnew : (if m₁.storage.length = m₁.storage.length
        then some m₂.storage.length else σ m₁.storage.length) =
          some m₂.storage.length := if_pos rfl
    refine ⟨?_, ?_, ?_, hrel.acts, ?_, ?_⟩
    · intro i i' j hi hi'
      by_cases hc : i = m₁.storage.length <;>
        by_cases hc' : i' = m₁.storage.length
      · rw [hc, hc']
      · rw [if_pos hc] at hi
        rw [if_neg hc'] at hi'
        cases hi
        exact absurd (hrel.domLt i' _ hi').2 (Nat.lt_irrefl _)
      · rw [if_neg hc] at hi
        rw [if_pos hc'] at hi'
        cases hi'
        exact absurd (hrel.domLt i _ hi).2 (Nat.lt_irrefl _)
      · rw [if_neg hc] at hi
        rw [if_neg hc'] at hi'
        exact hrel.inj _ _ _ hi hi'
    · refine List.Forall₂.cons ?_
        (List.Forall₂.imp (fun _ _ => valRel_mono hmono) hrel.values)
      exact ⟨rfl, rfl, hnew⟩
    · exact List.Forall₂.imp (fun _ _ => envRel_mono hmono) hrel.envs
    · intro i j hij
      show i < (m₁.storage ++ [_]).length ∧ j < (m₂.storage ++ [_]).length
      simp only [List.length_append, List.length_cons, List.length_nil]
      by_cases hc : i = m₁.storage.length
      · rw [if_pos hc] at hij
        cases hij
        omega
      · rw [if_neg hc] at hij
        have := hrel.domLt _ _ hij
        omega
    · intro i j hij
      by_cases hc : i = m₁.storage.length
      · rw [if_pos hc] at hij
        cases hij
        subst hc
        show envRel _ ((m₁.storage ++ [_]).getD m₁.storage.length [])
          ((m₂.storage ++ [_]).getD m₂.storage.length [])
        rw [getD_append_self, getD_append_self]
        refine envRel_insert (envRel_mono hmono henv) ?_ name
        exact ⟨rfl, rfl, hnew⟩
      · rw [if_neg hc] at hij
        have hlt := hrel.domLt _ _ hij
        show envRel _ ((m₁.storage ++ [_]).getD i [])
          ((m₂.storage ++ [_]).getD j [])
        rw [getD_append_lt _ _ _ _ hlt.1, getD_append_lt _ _ _ _ hlt.2]
        exact envRel_mono hmono (hrel.storage _ _ hij)
  | call =>
    rcases popValue_rel hrel with
      ⟨e, he1, he2⟩ | ⟨argV₁, argV₂, k₁, k₂, hp1, hp2, hargv, hrel1⟩
    · exact Or.inl ⟨e, by simp only [Instruction.exec, he1],
        by simp only [Instruction.exec, he2]⟩
    rcases popClosure_rel hrel1 with
      ⟨e, he1, he2⟩ | ⟨c₁, c₂, l₁, l₂, hq1, hq2, harg, hframe, hσ, hrel2⟩
    · exact Or.inl ⟨e, by simp only [Instruction.exec, hp1, he1],
        by simp only [Instruction.exec, hp2, he2]⟩
    have hlt := hrel2.domLt _ _ hσ
    refine Or.inr ⟨σ,
      { l₁ with
          environments :=
            envInsert c₁.arg argV₁ (l₁.storage.getD c₁.env []) ::
              l₁.environments
          activations := c₁.frame :: l₁.activations },
      { l₂ with
          environments :=
            envInsert c₂.arg argV₂ (l₂.storage.getD c₂.env []) ::
              l₂.environments
          activations := c₂.frame :: l₂.activations },
      by simp only [Instruction.exec, hp1, hq1]
         rw [if_pos hlt.1],
      by simp only [Instruction.exec, hp2, hq2]
         rw [if_pos hlt.2],
      ?_⟩
    refine ⟨hrel2.inj, hrel2.values, ?_, ?_, hrel2.domLt, hrel2.storage⟩
    · refine List.Forall₂.cons ?_ hrel2.envs
      rw [harg]
      exact envRel_insert (hrel2.storage _ _ hσ) hargv c₂.arg
    · show c₁.frame :: l₁.activations = c₂.frame :: l₂.activations
      rw [hframe, hrel2.acts]
  | popEnv =>
    rcases popEnvStep_rel hrel with ⟨e, he1, he2⟩ | ⟨n₁, n₂, h1, h2, hrel1⟩
    · exact Or.inl ⟨e, by simp only [Instruction.exec, he1],
        by simp only [Instruction.exec, he2]⟩
    · exact Or.inr ⟨σ, n₁, n₂, by simp only [Instruction.exec, h1],
        by simp only [Instruction.exec, h2], hrel1⟩

/-! ### The fetch-execute loop in lockstep (C2) -/

theorem fetch_rel {σ : Nat → Option Nat} {m₁ m₂ : Machine}
    (hrel : MRel σ m₁ m₂) :
    m₁.fetchInstruction.1 = m₂.fetchInstruction.1 ∧
    MRel σ m₁.fetchInstruction.2 m₂.fetchInstruction.2 := by
  have hacts := hrel.acts
  cases h1 : m₁.activations with
  | nil =>
    rw [h1] at hacts
    have h2 : m₂.activations = [] := hacts.symm
    simp only [Machine.fetchInstruction, h1, h2]
    exact ⟨trivial, hrel⟩
  | cons act rest =>
    rw [h1] at hacts
    have h2 : m₂.activations = act :: rest := hacts.symm
    cases act with
    | nil =>
      simp only [Machine.fetchInstruction, h1, h2]
      exact ⟨trivial, ⟨hrel.inj, hrel.values, hrel.envs, rfl, hrel.domLt,
        hrel.storage⟩⟩
    | cons inst tail =>
      simp only [Machine.fetchInstruction, h1, h2]
      exact ⟨trivial, ⟨hrel.inj, hrel.values, hrel.envs, rfl, hrel.domLt,
        hrel.storage⟩⟩

theorem fetch_valid {m : Machine} (h : Valid m) : Valid m.fetchInstruction.2 := by
  cases h1 : m.activations with
  | nil =>
    simp only [Machine.fetchInstruction, h1]
    exact h
  | cons act rest =>
    cases act with
    | nil =>
      simp only [Machine.fetchInstruction, h1]
      exact ⟨h.values, h.envs, h.storage⟩
    | cons inst tail =>
      simp only [Machine.fetchInstruction, h1]
      exact ⟨h.values, h.envs, h.storage⟩

theorem obsRel_of_valRel {σ : Nat → Option Nat} {v₁ v₂ : Value}
    (h : valRel σ v₁ v₂) : obsRel v₁ v₂ := by
  cases v₁ with
  | int i => cases v₂ with
    | int j => exact h
    | bool b => cases h
    | closure c => cases h
  | bool b => cases v₂ with
    | int j => cases h
    | bool b' => exact h
    | closure c => cases h
  | closure c => cases v₂ with
    | int j => cases h
    | bool b => cases h
    | closure d => exact ⟨h.1, h.2.1⟩

theorem finishExec_rel {σ : Nat → Option Nat} {f₁ f₂ : Machine}
    (hrel : MRel σ f₁ f₂) :
    (∃ e, finishExec f₁ = .error e ∧ finishExec f₂ = .error e) ∨
    (∃ v₁ v₂, finishExec f₁ = .ok v₁ ∧ finishExec f₂ = .ok v₂ ∧
      obsRel v₁ v₂) := by
  rcases popValue_rel hrel with ⟨e, he1, he2⟩ | ⟨v₁, v₂, n₁, n₂, hp1, hp2, hv, hn⟩
  · exact Or.inl ⟨e, by simp only [finishExec, he1],
      by simp only [finishExec, he2]⟩
  have hemp : n₁.values.isEmpty = n₂.values.isEmpty := by
    have hv2 := hn.values
    cases h1 : n₁.values with
    | nil =>
      rw [h1] at hv2
      rw [List.forall₂_nil_left_iff.mp hv2]
    | cons a t =>
      rw [h1] at hv2
      rcases List.forall₂_cons_left_iff.mp hv2 with ⟨b, t₂, hab, ht, h2⟩
      rw [h2]
      rfl
  by_cases he : n₁.values.isEmpty
  · exact Or.inr ⟨v₁, v₂, by simp only [finishExec, hp1]; rw [if_pos he],
      by simp only [finishExec, hp2]; rw [if_pos (hemp ▸ he)],
      obsRel_of_valRel hv⟩
  · exact Or.inl ⟨.fatal "more then one value on stack left",
      by simp only [finishExec, hp1]; rw [if_neg he],
      by simp only [finishExec, hp2]; rw [if_neg (hemp ▸ he)]⟩

theorem execLoop_rel (K : Nat) :
    ∀ fuel step (σ : Nat → Option Nat) (m₁ m₂ : Machine), MRel σ m₁ m₂ →
      Valid m₂ →
    (execLoop none fuel (step, m₁) = none ∧
     execLoop (some K) fuel (step, m₂) = none) ∨
    (∃ e, execLoop none fuel (step, m₁) = some (.error e) ∧
      execLoop (some K) fuel (step, m₂) = some (.error e)) ∨
    (∃ σ' f₁ f₂, execLoop none fuel (step, m₁) = some (.ok f₁) ∧
      execLoop (some K) fuel (step, m₂) = some (.ok f₂) ∧
      MRel σ' f₁ f₂) := by
  intro fuel
  induction fuel with
  | zero =>
    intro step σ m₁ m₂ _ _
    exact Or.inl ⟨rfl, rfl⟩
  | succ fuel ih =>
    intro step σ m₁ m₂ hrel hval
    obtain ⟨hfeq, hfrel⟩ := fetch_rel hrel
    have hfval := fetch_valid hval
    cases hf1 : m₁.fetchInstruction with
    | mk o₁ n₁ =>
    cases hf2 : m₂.fetchInstruction with
    | mk o₂ n₂ =>
    rw [hf1, hf2] at hfeq hfrel
    rw [hf2] at hfval
    simp only at hfeq hfrel hfval
    subst hfeq
    cases o₁ with
    | none =>
      refine Or.inr (Or.inr ⟨σ, n₁, n₂, ?_, ?_, hfrel⟩)
      · simp only [execLoop, loopStep, hf1]
      · simp only [execLoop, loopStep, hf2]
    | some inst =>
      rcases exec_rel_full inst hfrel with
        ⟨e, he1, he2⟩ | ⟨σ', k₁, k₂, hok1, hok2, hrel'⟩
      · refine Or.inr (Or.inl ⟨e, ?_, ?_⟩)
        · simp only [execLoop, loopStep, hf1, he1]
        · simp only [execLoop, loopStep, hf2, he2]
      · have hval' : Valid k₂ := valid_exec hfval hok2
        have heq1 : execLoop none (fuel + 1) (step, m₁) =
            execLoop none fuel (step + 1, k₁) := by
          simp only [execLoop, loopStep, hf1, hok1]
        by_cases hgc : (step + 1) % K = 0
        · have heq2 : execLoop (some K) (fuel + 1) (step, m₂) =
              execLoop (some K) fuel (step + 1, k₂.gc) := by
            simp only [execLoop, loopStep, hf2, hok2]
            rw [if_pos hgc]
          obtain ⟨τ, hτ, hgval⟩ := gc_spec hval'
          rw [heq1, heq2]
          exact ih (step + 1) _ k₁ k₂.gc (mrel_comp hrel' hτ) hgval
        · have heq2 : execLoop (some K) (fuel + 1) (step, m₂) =
              execLoop (some K) fuel (step + 1, k₂) := by
            simp only [execLoop, loopStep, hf2, hok2]
            rw [if_neg hgc]
          rw [heq1, heq2]
          exact ih (step + 1) σ' k₁ k₂ hrel' hval'

/-- **C2** (corrected).  Garbage collection is observationally transparent:
for every program and every collection interval `K` (including the source's
92), running the machine with collection (`execWith (some K)`) and without it
(`execWith none`) on the same fuel budget either both diverge, or both fail
with the very same error, or both succeed with observably equal results —
equal integers, equal booleans, or closures with the same argument name and
the same code, the closure's environment *index* being the one
representation detail compaction may rewrite (the literal `Value` equality
of the original claim fails, see the counterexample). -/
theorem c2_gc_observational (p : Frame) (K fuel : Nat) :
    execResRel ((Machine.new p).execWith none fuel)
      ((Machine.new p).execWith (some K) fuel) := by
  have hrel : MRel (fun _ => none) (Machine.new p) (Machine.new p) := by
    refine ⟨?_, List.Forall₂.nil, ?_, rfl, ?_, ?_⟩
    · intro i i' j h
      cases h
    · exact List.Forall₂.cons List.Forall₂.nil List.Forall₂.nil
    · intro i j h
      cases h
    · intro i j h
      cases h
  have hval : Valid (Machine.new p) := by
    refine ⟨?_, ?_, ?_⟩
    · intro v hv
      cases hv
    · intro e he
      have he' : e = [] := List.mem_singleton.1 he
      subst he'
      intro q hq
      exact (List.not_mem_nil q hq).elim
    · intro e he
      cases he
  rcases execLoop_rel K fuel 0 _ _ _ hrel hval with
    ⟨h1, h2⟩ | ⟨e, h1, h2⟩ | ⟨σ', f₁, f₂, h1, h2, hrel'⟩
  · simp only [Machine.execWith, h1, h2, Option.map_none']
    trivial
  · simp only [Machine.execWith, h1, h2, Option.map_some']
    rfl
  · simp only [Machine.execWith, h1, h2, Option.map_some']
    rcases finishExec_rel hrel' with ⟨e, g1, g2⟩ | ⟨v₁, v₂, g1, g2, hobs⟩
    · rw [g1, g2]
      rfl
    · rw [g1, g2]
      exact hobs
